import Mathlib

/-!
Verification of the topcat core against its specification.

The development shallowly embeds the Rust sources:
* `src/stable_topo.rs` — the deterministic ("stable") topological sort
  (`StableTopo::new`, `extend_with_initials`, `Iterator::next`);
* `src/file_dag.rs` — per-layer graph construction (`add_nodes_to_graphs`),
  dependency validation (`validate_dependencies`), cycle gating
  (`check_cyclic_dependencies`), the orchestrator (`build_graph`,
  `get_sorted_files`) and error recovery (`handle_file_node_error`);
* `src/file_node.rs` — header parsing (`FileNode::from_file`).

Graphs are embedded as a node list (petgraph node indices are insertion
positions, so `Nat` indices into the list) plus a list of directed edges.
Machine iteration over hash containers is represented by explicit lists;
properties proved below are stated so that they hold for the actual
program under any hash-iteration order.
-/

namespace Topcat

/-- A directed graph as built by petgraph `Graph`: node weights in insertion
order (the `NodeIndex` of a node is its position) and a list of directed
edges between node indices. -/
structure DG (α : Type) where
  nodes : List α
  edges : List (Nat × Nat)
deriving DecidableEq, Repr

/-- The node weight seen through the comparison key used by
`StableTopo::next` (`FileNode`'s `Ord` is its `name`; `node_weight` just
reads the weight at an index). -/
def keyAt {α : Type} (key : α → String) (g : DG α) (i : Nat) : String :=
  (g.nodes.map key).getD i ""

/-- The weight key as its character sequence: Rust's `Ord` on `String` is
lexicographic byte order, which for UTF-8 coincides with lexicographic
order on the code-point sequence. -/
def keyOf {α : Type} (key : α → String) (g : DG α) (i : Nat) : List Char :=
  (keyAt key g i).data

/-- Outgoing neighbors of node `i` (`graph.neighbors(nix)`). -/
def succsOf {α : Type} (g : DG α) (i : Nat) : List Nat :=
  (g.edges.filter (fun e => e.1 == i)).map (fun e => e.2)

/-- Incoming neighbors of node `i`
(`Reversed(&graph).neighbors(...)` / `neighbors_directed(-, Incoming)`). -/
def predsOf {α : Type} (g : DG α) (i : Nat) : List Nat :=
  (g.edges.filter (fun e => e.2 == i)).map (fun e => e.1)

/-- All edge endpoints are valid node indices; holds for every graph the
program builds. -/
abbrev WFdg {α : Type} (g : DG α) : Prop :=
  ∀ e ∈ g.edges, e.1 < g.nodes.length ∧ e.2 < g.nodes.length

/-- `tovisit.sort_unstable_by(node_weight cmp)`: sort ascending by weight. -/
def sortKey {α : Type} (key : α → String) (g : DG α) (l : List Nat) : List Nat :=
  l.insertionSort (fun a b => keyOf key g a ≤ keyOf key g b)

/-- State of `StableTopo`: the `ordered` set of already-emitted node ids and
the `tovisit` working list. -/
structure TopoState where
  ordered : Finset Nat
  tovisit : List Nat
deriving DecidableEq

/-- Successors of the just-emitted node `x` all of whose predecessors are in
the updated `ordered` set (`StableTopo::next`, the neighbor scan). -/
def eligAfter {α : Type} (g : DG α) (ordered2 : Finset Nat) (x : Nat) : List Nat :=
  (succsOf g x).filter (fun v => (predsOf g v).all (fun u => decide (u ∈ ordered2)))

/-- The pop loop of `StableTopo::next`: the sorted `tovisit` vector is popped
from its end (here: the reversed sorted list is consumed from the front),
silently skipping already-ordered entries; the first unvisited node is
emitted, its newly eligible successors are sorted and appended. -/
def nextAux {α : Type} (key : α → String) (g : DG α) :
    Finset Nat → List Nat → Option (Nat × TopoState)
  | _, [] => none
  | ordered, x :: stack =>
    if x ∈ ordered then nextAux key g ordered stack
    else
      let ordered2 := insert x ordered
      some (x, ⟨ordered2, stack.reverse ++ sortKey key g (eligAfter g ordered2 x)⟩)

/-- One call of `StableTopo::next`. -/
def nextTopo {α : Type} (key : α → String) (g : DG α) (s : TopoState) :
    Option (Nat × TopoState) :=
  nextAux key g s.ordered ((sortKey key g s.tovisit).reverse)

/-- Repeated `next()` calls collecting the emitted node ids; `fuel` bounds
the number of calls (each emission puts a new node into `ordered`, so
`nodes.length + 1` calls always reach `None`). -/
def runTopo {α : Type} (key : α → String) (g : DG α) : Nat → TopoState → List Nat
  | 0, _ => []
  | fuel+1, s =>
    match nextTopo key g s with
    | none => []
    | some (x, s2) => x :: runTopo key g fuel s2

/-- `StableTopo::new` + `extend_with_initials`: empty `ordered`, `tovisit`
holds all nodes without incoming edges, in node-index order. -/
def initTopo {α : Type} (g : DG α) : TopoState :=
  ⟨∅, (List.range g.nodes.length).filter (fun i => (predsOf g i).isEmpty)⟩

/-- The full emitted sequence of `StableTopo` iterated to exhaustion. -/
def stableTopoList {α : Type} (key : α → String) (g : DG α) : List Nat :=
  runTopo key g (g.nodes.length + 1) (initTopo g)

/-- Nodes of `rem` with no incoming edge from `rem` (one elimination round
of the directed-cycle test). -/
def kahnRemovable {α : Type} (g : DG α) (rem : Finset Nat) : Finset Nat :=
  rem.filter (fun v => rem.filter (fun u => (u, v) ∈ g.edges) = ∅)

/-- Acyclicity check by source elimination, behaviorally equal to petgraph's
`is_cyclic_directed`: repeatedly remove all nodes with no incoming edge from
the remaining set; the graph is acyclic iff everything gets removed. -/
def kahnAux {α : Type} (g : DG α) : Nat → Finset Nat → Bool
  | 0, rem => decide (rem = ∅)
  | fuel+1, rem =>
    if rem = ∅ then true
    else
      let removable := kahnRemovable g rem
      if removable = ∅ then false
      else kahnAux g fuel (rem \ removable)

/-- `is_cyclic_directed(graph)`. -/
def isCyclicDG {α : Type} (g : DG α) : Bool :=
  ! kahnAux g g.nodes.length (Finset.range g.nodes.length)

/-- `c` is an elementary cycle of `g` written as its node sequence: nonempty
and every consecutive pair, wraparound included, is an edge. -/
def isCycleList {α : Type} (g : DG α) (c : List Nat) : Bool :=
  !c.isEmpty &&
    (List.range c.length).all
      (fun k => decide ((c.getD k 0, c.getD ((k+1) % c.length) 0) ∈ g.edges))

/-- `graph.cycles()` of the `graph_cycles` crate: all elementary cycles,
as duplicate-free node-index sequences drawn from the node set. -/
def elementaryCycles {α : Type} (g : DG α) : List (List Nat) :=
  (((List.range g.nodes.length).sublists).flatMap List.permutations).filter
    (isCycleList g)

/-! ### Basic lemmas about the stable-topo embedding -/

theorem sortKey_perm {α : Type} (key : α → String) (g : DG α) (l : List Nat) :
    List.Perm (sortKey key g l) l :=
  List.perm_insertionSort _ l

theorem sortKey_sorted {α : Type} (key : α → String) (g : DG α) (l : List Nat) :
    (sortKey key g l).Sorted (fun a b => keyOf key g a ≤ keyOf key g b) := by
  haveI : IsTotal Nat (fun a b => keyOf key g a ≤ keyOf key g b) :=
    ⟨fun a b => le_total _ _⟩
  haveI : IsTrans Nat (fun a b => keyOf key g a ≤ keyOf key g b) :=
    ⟨fun a b c hab hbc => le_trans hab hbc⟩
  exact List.sorted_insertionSort _ l

theorem mem_sortKey {α : Type} {key : α → String} {g : DG α} {l : List Nat} {x : Nat} :
    x ∈ sortKey key g l ↔ x ∈ l :=
  (sortKey_perm key g l).mem_iff

theorem mem_predsOf {α : Type} {g : DG α} {u v : Nat} :
    u ∈ predsOf g v ↔ (u, v) ∈ g.edges := by
  simp only [predsOf, List.mem_map, List.mem_filter, beq_iff_eq]
  constructor
  · rintro ⟨⟨a, b⟩, ⟨he, hb⟩, ha⟩
    simp only at hb ha
    subst hb; subst ha; exact he
  · intro h
    exact ⟨(u, v), ⟨h, rfl⟩, rfl⟩

theorem mem_succsOf {α : Type} {g : DG α} {u v : Nat} :
    v ∈ succsOf g u ↔ (u, v) ∈ g.edges := by
  simp only [succsOf, List.mem_map, List.mem_filter, beq_iff_eq]
  constructor
  · rintro ⟨⟨a, b⟩, ⟨he, ha⟩, hb⟩
    simp only at hb ha
    subst hb; subst ha; exact he
  · intro h
    exact ⟨(u, v), ⟨h, rfl⟩, rfl⟩

theorem nextAux_eq_none_iff {α : Type} (key : α → String) (g : DG α)
    (ord : Finset Nat) : ∀ l, (nextAux key g ord l = none ↔ ∀ x ∈ l, x ∈ ord)
  | [] => by simp [nextAux]
  | x :: t => by
    by_cases h : x ∈ ord
    · simp only [nextAux, if_pos h, nextAux_eq_none_iff key g ord t,
        List.mem_cons]
      constructor
      · intro ht y hy
        rcases hy with rfl | hy
        · exact h
        · exact ht y hy
      · intro hall y hy
        exact hall y (Or.inr hy)
    · simp only [nextAux, if_neg h]
      constructor
      · intro hc
        exact absurd hc (by simp)
      · intro hall
        exact absurd (hall x (by simp)) h

theorem nextAux_some {α : Type} {key : α → String} {g : DG α}
    {ord : Finset Nat} :
    ∀ {l : List Nat} {x : Nat} {s2 : TopoState},
      nextAux key g ord l = some (x, s2) →
      ∃ l1 l2, l = l1 ++ x :: l2 ∧ (∀ y ∈ l1, y ∈ ord) ∧ x ∉ ord ∧
        s2 = ⟨insert x ord, l2.reverse ++ sortKey key g (eligAfter g (insert x ord) x)⟩
  | [], x, s2 => by simp [nextAux]
  | y :: t, x, s2 => by
    by_cases h : y ∈ ord
    · simp only [nextAux, if_pos h]
      intro hrec
      obtain ⟨l1, l2, hsplit, hord, hx, hs⟩ := nextAux_some hrec
      exact ⟨y :: l1, l2, by simp [hsplit], by
        intro z hz
        rcases List.mem_cons.mp hz with rfl | hz
        · exact h
        · exact hord z hz, hx, hs⟩
    · simp only [nextAux, if_neg h, Option.some.injEq, Prod.mk.injEq]
      rintro ⟨rfl, rfl⟩
      exact ⟨[], t, rfl, by simp, h, rfl⟩

/-- The invariant maintained by `StableTopo`: every frontier entry is a valid
node all of whose predecessors are already ordered, every not-yet-ordered
node whose predecessors are all ordered is in the frontier, and `ordered`
only holds valid nodes. -/
def InvT {α : Type} (g : DG α) (s : TopoState) : Prop :=
  (∀ v ∈ s.tovisit, v < g.nodes.length ∧ ∀ u ∈ predsOf g v, u ∈ s.ordered) ∧
  (∀ v, v < g.nodes.length → v ∉ s.ordered →
    (∀ u ∈ predsOf g v, u ∈ s.ordered) → v ∈ s.tovisit) ∧
  s.ordered ⊆ Finset.range g.nodes.length

theorem initTopo_inv {α : Type} (g : DG α) : InvT g (initTopo g) := by
  refine ⟨?_, ?_, ?_⟩
  · intro v hv
    simp only [initTopo, List.mem_filter, List.mem_range] at hv
    refine ⟨hv.1, ?_⟩
    intro u hu
    rw [List.isEmpty_iff] at hv
    rw [hv.2] at hu
    simp at hu
  · intro v hvlt _ hpred
    simp only [initTopo, List.mem_filter, List.mem_range]
    refine ⟨hvlt, ?_⟩
    rw [List.isEmpty_iff]
    cases hp : predsOf g v with
    | nil => rfl
    | cons u t =>
      exfalso
      have := hpred u (by rw [hp]; simp)
      simp [initTopo] at this
  · intro v hv
    simp [initTopo] at hv

theorem nextTopo_none {α : Type} {key : α → String} {g : DG α} {s : TopoState}
    (h : nextTopo key g s = none) : ∀ v ∈ s.tovisit, v ∈ s.ordered := by
  intro v hv
  rw [nextTopo, nextAux_eq_none_iff] at h
  exact h v (by rw [List.mem_reverse, mem_sortKey]; exact hv)

theorem nextTopo_some {α : Type} {key : α → String} {g : DG α} {s : TopoState}
    {x : Nat} {s2 : TopoState} (hwf : WFdg g) (hinv : InvT g s)
    (h : nextTopo key g s = some (x, s2)) :
    x < g.nodes.length ∧ x ∉ s.ordered ∧ x ∈ s.tovisit ∧
      (∀ u ∈ predsOf g x, u ∈ s.ordered) ∧
      s2.ordered = insert x s.ordered ∧ InvT g s2 := by
  rw [nextTopo] at h
  obtain ⟨l1, l2, hsplit, hskip, hxo, hs2⟩ := nextAux_some h
  have hmem : x ∈ s.tovisit := by
    rw [← @mem_sortKey _ key g _ _, ← List.mem_reverse, hsplit]
    simp
  obtain ⟨hxlt, hxpreds⟩ := hinv.1 x hmem
  subst hs2
  have hl2sub : ∀ y ∈ l2, y ∈ s.tovisit := by
    intro y hy
    rw [← @mem_sortKey _ key g _ _, ← List.mem_reverse, hsplit]
    simp [hy]
  refine ⟨hxlt, hxo, hmem, hxpreds, rfl, ?_, ?_, ?_⟩
  · -- frontier entries valid with ordered predecessors
    intro v hv
    simp only [List.mem_append, List.mem_reverse] at hv
    rcases hv with hv | hv
    · obtain ⟨hvlt, hvp⟩ := hinv.1 v (hl2sub v hv)
      exact ⟨hvlt, fun u hu => Finset.mem_insert_of_mem (hvp u hu)⟩
    · rw [mem_sortKey] at hv
      simp only [eligAfter, List.mem_filter, List.all_eq_true, decide_eq_true_eq] at hv
      obtain ⟨hvs, hvp⟩ := hv
      exact ⟨(hwf _ (mem_succsOf.mp hvs)).2, hvp⟩
  · -- every newly eligible unordered node is in the frontier
    intro v hvlt hvo hvp
    simp only [Finset.mem_insert, not_or] at hvo
    obtain ⟨hvx, hvo⟩ := hvo
    simp only [List.mem_append, List.mem_reverse]
    by_cases hall : ∀ u ∈ predsOf g v, u ∈ s.ordered
    · -- was already eligible: survives in the remaining stack
      left
      have hv : v ∈ s.tovisit := hinv.2.1 v hvlt hvo hall
      have : v ∈ l1 ++ x :: l2 := by
        rw [← hsplit, List.mem_reverse, mem_sortKey]
        exact hv
      simp only [List.mem_append, List.mem_cons] at this
      rcases this with h1 | h1 | h1
      · exact absurd (hskip v h1) hvo
      · exact absurd h1 hvx
      · exact h1
    · -- x was the last missing predecessor: v is appended as eligible
      right
      push_neg at hall
      obtain ⟨u, hu, huo⟩ := hall
      have hux : u = x := by
        have := hvp u hu
        simp only [Finset.mem_insert] at this
        rcases this with rfl | h1
        · rfl
        · exact absurd h1 huo
      subst hux
      rw [mem_sortKey]
      simp only [eligAfter, List.mem_filter, List.all_eq_true, decide_eq_true_eq]
      exact ⟨mem_succsOf.mpr (mem_predsOf.mp hu), hvp⟩
  · -- ordered stays within range
    intro v hv
    simp only [Finset.mem_insert] at hv
    rcases hv with rfl | hv
    · exact Finset.mem_range.mpr hxlt
    · exact hinv.2.2 hv

/-- Soundness of the source-elimination pass: if it empties the remaining
set, every nonempty subset of the remaining set has a node with no incoming
edge from inside the subset. -/
theorem kahn_source {α : Type} {g : DG α} :
    ∀ {fuel : Nat} {rem : Finset Nat}, kahnAux g fuel rem = true →
      ∀ U ⊆ rem, U.Nonempty → ∃ v ∈ U, ∀ u ∈ U, (u, v) ∉ g.edges := by
  intro fuel
  induction fuel with
  | zero =>
    intro rem h U hU hne
    simp only [kahnAux, decide_eq_true_eq] at h
    subst h
    obtain ⟨v, hv⟩ := hne
    exact absurd (hU hv) (by simp)
  | succ n ih =>
    intro rem h U hU hne
    rw [kahnAux] at h
    by_cases hrem : rem = ∅
    · obtain ⟨v, hv⟩ := hne
      exact absurd (hU hv) (by rw [hrem]; simp)
    · rw [if_neg hrem] at h
      by_cases hrm : kahnRemovable g rem = ∅
      · rw [if_pos hrm] at h
        simp at h
      · rw [if_neg hrm] at h
        by_cases hint : (U ∩ kahnRemovable g rem).Nonempty
        · obtain ⟨v, hv⟩ := hint
          rw [Finset.mem_inter] at hv
          refine ⟨v, hv.1, ?_⟩
          intro u hu hedge
          have hv2 := hv.2
          simp only [kahnRemovable, Finset.mem_filter] at hv2
          have : u ∈ rem.filter (fun u => (u, v) ∈ g.edges) :=
            Finset.mem_filter.mpr ⟨hU hu, hedge⟩
          rw [hv2.2] at this
          simp at this
        · have hU2 : U ⊆ rem \ kahnRemovable g rem := by
            intro v hv
            rw [Finset.mem_sdiff]
            refine ⟨hU hv, ?_⟩
            intro hc
            exact hint ⟨v, Finset.mem_inter.mpr ⟨hv, hc⟩⟩
          exact ih h U hU2 hne

/-- When the run has stalled (every frontier entry already ordered) on an
acyclic graph, everything has been ordered. -/
theorem stalled_complete {α : Type} {g : DG α}
    {s : TopoState} (hwf : WFdg g) (hinv : InvT g s)
    (hac : isCyclicDG g = false)
    (hstall : ∀ v ∈ s.tovisit, v ∈ s.ordered) :
    s.ordered = Finset.range g.nodes.length := by
  have hk : kahnAux g g.nodes.length (Finset.range g.nodes.length) = true := by
    rw [isCyclicDG] at hac
    simpa using hac
  refine Finset.Subset.antisymm hinv.2.2 ?_
  by_contra hc
  obtain ⟨v0, hv0r, hv0o⟩ := Finset.not_subset.mp hc
  have hUne : (Finset.range g.nodes.length \ s.ordered).Nonempty :=
    ⟨v0, Finset.mem_sdiff.mpr ⟨hv0r, hv0o⟩⟩
  obtain ⟨v, hv, hvsrc⟩ :=
    kahn_source hk (Finset.range g.nodes.length \ s.ordered)
      (Finset.sdiff_subset) hUne
  rw [Finset.mem_sdiff, Finset.mem_range] at hv
  have hpred : ∀ u ∈ predsOf g v, u ∈ s.ordered := by
    intro u hu
    have hedge := mem_predsOf.mp hu
    have hult : u < g.nodes.length := (hwf _ hedge).1
    by_contra huo
    exact hvsrc u (Finset.mem_sdiff.mpr ⟨Finset.mem_range.mpr hult, huo⟩) hedge
  have := hinv.2.1 v hv.1 hv.2 hpred
  exact hv.2 (hstall v this)

/-- Main run lemma: with enough fuel, an acyclic run from an invariant state
emits, without repetition, exactly the not-yet-ordered nodes, and every
emitted node's predecessors are ordered before it. -/
theorem runTopo_spec {α : Type} {key : α → String} {g : DG α} :
    ∀ (fuel : Nat) (s : TopoState), WFdg g → InvT g s →
      g.nodes.length < fuel + s.ordered.card → isCyclicDG g = false →
      (runTopo key g fuel s).Nodup ∧
      (∀ x ∈ runTopo key g fuel s, x ∉ s.ordered ∧ x < g.nodes.length) ∧
      s.ordered ∪ (runTopo key g fuel s).toFinset = Finset.range g.nodes.length ∧
      (∀ (j : Nat) (hj : j < (runTopo key g fuel s).length),
        ∀ u ∈ predsOf g ((runTopo key g fuel s).get ⟨j, hj⟩),
          u ∈ s.ordered ∨ u ∈ (runTopo key g fuel s).take j) := by
  intro fuel
  induction fuel with
  | zero =>
    intro s hwf hinv hfuel hac
    exfalso
    have hcard : s.ordered.card ≤ g.nodes.length := by
      have := Finset.card_le_card hinv.2.2
      simpa using this
    omega
  | succ n ih =>
    intro s hwf hinv hfuel hac
    cases hnext : nextTopo key g s with
    | none =>
      have hcomplete := stalled_complete hwf hinv hac (nextTopo_none hnext)
      simp only [runTopo, hnext]
      refine ⟨List.nodup_nil, by simp, by simpa using hcomplete, by simp⟩
    | some p =>
      obtain ⟨x, s2⟩ := p
      obtain ⟨hxlt, hxo, hxtv, hxpred, hs2o, hinv2⟩ := nextTopo_some hwf hinv hnext
      have hcard2 : s2.ordered.card = s.ordered.card + 1 := by
        rw [hs2o, Finset.card_insert_of_not_mem hxo]
      have hfuel2 : g.nodes.length < n + s2.ordered.card := by omega
      obtain ⟨ihnd, ihmem, ihun, ihpos⟩ := ih s2 hwf hinv2 hfuel2 hac
      have hrun : runTopo key g (n + 1) s = x :: runTopo key g n s2 := by
        simp [runTopo, hnext]
      rw [hrun]
      refine ⟨?_, ?_, ?_, ?_⟩
      · refine List.nodup_cons.mpr ⟨?_, ihnd⟩
        intro hc
        exact (ihmem x hc).1 (by rw [hs2o]; exact Finset.mem_insert_self x _)
      · intro y hy
        rcases List.mem_cons.mp hy with rfl | hy
        · exact ⟨hxo, hxlt⟩
        · obtain ⟨hyo, hylt⟩ := ihmem y hy
          refine ⟨fun hc => hyo ?_, hylt⟩
          rw [hs2o]
          exact Finset.mem_insert_of_mem hc
      · rw [← ihun, hs2o]
        ext z
        simp only [Finset.mem_union, Finset.mem_insert, List.toFinset_cons,
          List.mem_toFinset, List.mem_cons]
        tauto
      · intro j hj u hu
        cases j with
        | zero =>
          simp only [List.get] at hu
          left
          exact hxpred u hu
        | succ k =>
          simp only [List.length_cons, Nat.succ_lt_succ_iff] at hj
          have := ihpos k hj u (by simpa using hu)
          rcases this with h1 | h1
          · rw [hs2o] at h1
            rcases Finset.mem_insert.mp h1 with rfl | h1
            · right
              simp [List.take_succ_cons]
            · left; exact h1
          · right
            simp only [List.take_succ_cons, List.mem_cons]
            exact Or.inr h1

/-- On an acyclic graph the full run emits exactly the node set. -/
theorem stableTopo_perm_range {α : Type} (key : α → String) (g : DG α)
    (hwf : WFdg g) (hac : isCyclicDG g = false) :
    List.Perm (stableTopoList key g) (List.range g.nodes.length) := by
  have hL : stableTopoList key g =
      runTopo key g (g.nodes.length + 1) (initTopo g) := rfl
  obtain ⟨hnd, _, hun, _⟩ :=
    @runTopo_spec _ key _ (g.nodes.length + 1) (initTopo g) hwf
      (initTopo_inv g) (by simp [initTopo]) hac
  rw [← hL] at hnd hun
  rw [List.perm_ext_iff_of_nodup hnd (List.nodup_range _)]
  intro x
  rw [List.mem_range, ← Finset.mem_range]
  rw [show (Finset.range g.nodes.length) =
    (initTopo g).ordered ∪ (stableTopoList key g).toFinset from hun.symm]
  simp [initTopo, stableTopoList]

/-- On an acyclic graph each edge's source is emitted strictly before its
target. -/
theorem stableTopo_edge_before {α : Type} (key : α → String) (g : DG α)
    (hwf : WFdg g) (hac : isCyclicDG g = false) {u v : Nat}
    (huv : (u, v) ∈ g.edges) :
    ∃ (i j : Nat) (hi : i < (stableTopoList key g).length)
      (hj : j < (stableTopoList key g).length),
      i < j ∧ (stableTopoList key g).get ⟨i, hi⟩ = u ∧
        (stableTopoList key g).get ⟨j, hj⟩ = v := by
  have hL : stableTopoList key g =
      runTopo key g (g.nodes.length + 1) (initTopo g) := rfl
  obtain ⟨_, _, _, hpos⟩ :=
    @runTopo_spec _ key _ (g.nodes.length + 1) (initTopo g) hwf
      (initTopo_inv g) (by simp [initTopo]) hac
  rw [← hL] at hpos
  have hv : v ∈ stableTopoList key g := by
    rw [(stableTopo_perm_range key g hwf hac).mem_iff, List.mem_range]
    exact (hwf _ huv).2
  obtain ⟨j, hj, hjv⟩ := List.mem_iff_getElem.mp hv
  have hup : u ∈ predsOf g ((stableTopoList key g).get ⟨j, hj⟩) := by
    rw [List.get_eq_getElem, hjv]
    exact mem_predsOf.mpr huv
  have := hpos j hj u hup
  rcases this with h1 | h1
  · simp [initTopo] at h1
  · obtain ⟨i, hi, hiu⟩ := List.getElem_of_mem h1
    have hilt : i < j := lt_of_lt_of_le hi (by simp [List.length_take])
    have hjlen : j < (stableTopoList key g).length := hj
    have hiu2 : (stableTopoList key g)[i]? = some u := by
      rw [← @List.getElem?_take_of_lt _ (stableTopoList key g) _ _ hilt]
      rw [List.getElem?_eq_getElem hi]
      exact congrArg some hiu
    have hilen : i < (stableTopoList key g).length := lt_of_lt_of_le hilt (le_of_lt hj)
    refine ⟨i, j, hilen, hjlen, hilt, ?_, ?_⟩
    · rw [List.get_eq_getElem]
      have := List.getElem?_eq_getElem hilen
      rw [this] at hiu2
      exact Option.some.inj hiu2
    · rw [List.get_eq_getElem, hjv]

/-- What one `next()` call actually emits: an unvisited frontier entry whose
key is maximal among the unvisited frontier (the ascending sort is popped
from its tail). -/
theorem nextTopo_emits_max {α : Type} {key : α → String} {g : DG α}
    {s : TopoState} {x : Nat} {s2 : TopoState}
    (h : nextTopo key g s = some (x, s2)) :
    x ∈ s.tovisit ∧ x ∉ s.ordered ∧
      ∀ v ∈ s.tovisit, v ∉ s.ordered → keyOf key g v ≤ keyOf key g x := by
  rw [nextTopo] at h
  obtain ⟨l1, l2, hsplit, hskip, hxo, _⟩ := nextAux_some h
  have hxmem : x ∈ s.tovisit := by
    rw [← @mem_sortKey _ key g _ _, ← List.mem_reverse, hsplit]
    simp
  refine ⟨hxmem, hxo, ?_⟩
  intro v hv hvo
  have hvl : v ∈ l1 ++ x :: l2 := by
    rw [← hsplit, List.mem_reverse, mem_sortKey]
    exact hv
  rcases List.mem_append.mp hvl with h1 | h1
  · exact absurd (hskip v h1) hvo
  rcases List.mem_cons.mp h1 with rfl | h1
  · exact le_refl _
  · -- v comes after x in the reversed (descending) order
    have hpw : (l1 ++ x :: l2).Pairwise
        (fun a b => keyOf key g b ≤ keyOf key g a) := by
      rw [← hsplit]
      rw [List.pairwise_reverse]
      exact sortKey_sorted key g s.tovisit
    have := (List.pairwise_append.mp hpw).2.1
    exact (List.pairwise_cons.mp this).1 v h1

/-! ### Insertion-order independence (claim C1)

A relabelling `φ` between two graphs that preserves names and the edge
multiset induces a step-by-step correspondence of `StableTopo` runs. -/

/-- Two sorted lists that are permutations of each other and whose keys are
injective across their members are equal. -/
theorem sorted_perm_eq_of_injOn {f : Nat → List Char} :
    ∀ {l1 l2 : List Nat}, List.Perm l1 l2 →
      l1.Sorted (fun a b => f a ≤ f b) → l2.Sorted (fun a b => f a ≤ f b) →
      (∀ a ∈ l1, ∀ b ∈ l2, f a = f b → a = b) → l1 = l2
  | [], l2, hp, _, _, _ => (hp.nil_eq).symm ▸ rfl
  | a :: t1, [], hp, _, _, _ => absurd hp.symm.nil_eq (by simp)
  | a :: t1, b :: t2, hp, hs1, hs2, hinj => by
    have hab : a = b := by
      have ha2 : a ∈ b :: t2 := hp.mem_iff.mp (by simp)
      have hb1 : b ∈ a :: t1 := hp.mem_iff.mpr (by simp)
      have h1 : f b ≤ f a := by
        rcases List.mem_cons.mp ha2 with rfl | h
        · exact le_refl _
        · exact List.rel_of_sorted_cons hs2 a h
      have h2 : f a ≤ f b := by
        rcases List.mem_cons.mp hb1 with rfl | h
        · exact le_refl _
        · exact List.rel_of_sorted_cons hs1 b h
      exact hinj a (by simp) b (by simp) (le_antisymm h2 h1)
    subst hab
    have htail : t1 = t2 :=
      sorted_perm_eq_of_injOn hp.cons_inv hs1.of_cons hs2.of_cons
        (fun x hx y hy => hinj x (by simp [hx]) y (by simp [hy]))
    rw [htail]

/-- A name- and edge-preserving relabelling between two graph embeddings:
`g2` holds the same weights as `g1` (possibly inserted in another order,
`φ` sending `g1`-indices to `g2`-indices) and the same edge multiset.
Weights are required to have pairwise-distinct keys. -/
structure DGIso {α : Type} (key : α → String) (g1 g2 : DG α)
    (φ : Nat → Nat) : Prop where
  len : g2.nodes.length = g1.nodes.length
  range : ∀ i, i < g1.nodes.length → φ i < g1.nodes.length
  keyeq : ∀ i, i < g1.nodes.length → keyAt key g2 (φ i) = keyAt key g1 i
  inj : ∀ i, i < g1.nodes.length → ∀ j, j < g1.nodes.length → φ i = φ j → i = j
  surj : ∀ j, j < g1.nodes.length → ∃ i, i < g1.nodes.length ∧ φ i = j
  edgesPerm : List.Perm g2.edges (g1.edges.map (fun e => (φ e.1, φ e.2)))
  wf1 : WFdg g1
  wf2 : WFdg g2
  keyInj1 : ∀ i, i < g1.nodes.length → ∀ j, j < g1.nodes.length →
    keyAt key g1 i = keyAt key g1 j → i = j

namespace DGIso

variable {α : Type} {key : α → String} {g1 g2 : DG α} {φ : Nat → Nat}

theorem keyInj2 (iso : DGIso key g1 g2 φ) :
    ∀ a, a < g1.nodes.length → ∀ b, b < g1.nodes.length →
      keyAt key g2 a = keyAt key g2 b → a = b := by
  intro a ha b hb hk
  obtain ⟨i, hi, rfl⟩ := iso.surj a ha
  obtain ⟨j, hj, rfl⟩ := iso.surj b hb
  rw [iso.keyeq i hi, iso.keyeq j hj] at hk
  rw [iso.keyInj1 i hi j hj hk]

theorem predsPerm (iso : DGIso key g1 g2 φ) {v : Nat}
    (hv : v < g1.nodes.length) :
    List.Perm (predsOf g2 (φ v)) ((predsOf g1 v).map φ) := by
  have h1 : List.Perm (g2.edges.filter (fun e => e.2 == φ v))
      ((g1.edges.map (fun e => (φ e.1, φ e.2))).filter (fun e => e.2 == φ v)) :=
    iso.edgesPerm.filter _
  have h2 : (g1.edges.map (fun e => (φ e.1, φ e.2))).filter
        (fun e => e.2 == φ v) =
      (g1.edges.filter (fun e => e.2 == v)).map (fun e => (φ e.1, φ e.2)) := by
    rw [List.filter_map]
    congr 1
    apply List.filter_congr
    intro e he
    simp only [Function.comp_apply]
    by_cases h : e.2 = v
    · simp [h]
    · have h2 : φ e.2 ≠ φ v := fun hc => h (iso.inj e.2 (iso.wf1 e he).2 v hv hc)
      simp [h, h2]
  rw [predsOf, predsOf]
  have h3 := h1.map (fun e : Nat × Nat => e.1)
  rw [h2] at h3
  simpa [List.map_map, Function.comp] using h3

theorem succsPerm (iso : DGIso key g1 g2 φ) {v : Nat}
    (hv : v < g1.nodes.length) :
    List.Perm (succsOf g2 (φ v)) ((succsOf g1 v).map φ) := by
  have h1 : List.Perm (g2.edges.filter (fun e => e.1 == φ v))
      ((g1.edges.map (fun e => (φ e.1, φ e.2))).filter (fun e => e.1 == φ v)) :=
    iso.edgesPerm.filter _
  have h2 : (g1.edges.map (fun e => (φ e.1, φ e.2))).filter
        (fun e => e.1 == φ v) =
      (g1.edges.filter (fun e => e.1 == v)).map (fun e => (φ e.1, φ e.2)) := by
    rw [List.filter_map]
    congr 1
    apply List.filter_congr
    intro e he
    simp only [Function.comp_apply]
    by_cases h : e.1 = v
    · simp [h]
    · have h2 : φ e.1 ≠ φ v := fun hc => h (iso.inj e.1 (iso.wf1 e he).1 v hv hc)
      simp [h, h2]
  rw [succsOf, succsOf]
  have h3 := h1.map (fun e : Nat × Nat => e.2)
  rw [h2] at h3
  simpa [List.map_map, Function.comp] using h3

end DGIso

/-- Structural bounds for a successful `next()` step. -/
theorem nextTopo_bounds {α : Type} {key : α → String} {g : DG α}
    (hwf : WFdg g) {s : TopoState} {x : Nat} {s2 : TopoState}
    (hmem : ∀ v ∈ s.tovisit, v < g.nodes.length)
    (h : nextTopo key g s = some (x, s2)) :
    x < g.nodes.length ∧ (∀ v ∈ s2.tovisit, v < g.nodes.length) ∧
      s2.ordered = insert x s.ordered := by
  rw [nextTopo] at h
  obtain ⟨l1, l2, hsplit, _, _, hs2⟩ := nextAux_some h
  have hxmem : x ∈ s.tovisit := by
    rw [← @mem_sortKey _ key g _ _, ← List.mem_reverse, hsplit]
    simp
  have hxlt : x < g.nodes.length := hmem x hxmem
  subst hs2
  refine ⟨hxlt, ?_, rfl⟩
  intro v hv
  simp only [List.mem_append, List.mem_reverse] at hv
  rcases hv with hv | hv
  · apply hmem
    rw [← @mem_sortKey _ key g _ _, ← List.mem_reverse, hsplit]
    simp [hv]
  · rw [mem_sortKey] at hv
    simp only [eligAfter, List.mem_filter] at hv
    exact (hwf _ (mem_succsOf.mp hv.1)).2

/-- All emitted node ids are valid node indices. -/
theorem runTopo_mem_lt {α : Type} {key : α → String} {g : DG α}
    (hwf : WFdg g) :
    ∀ (fuel : Nat) {s : TopoState},
      (∀ v ∈ s.tovisit, v < g.nodes.length) →
      ∀ x ∈ runTopo key g fuel s, x < g.nodes.length := by
  intro fuel
  induction fuel with
  | zero => intro s _ x hx; simp [runTopo] at hx
  | succ n ih =>
    intro s hmem x hx
    rw [runTopo] at hx
    cases hnext : nextTopo key g s with
    | none => rw [hnext] at hx; simp at hx
    | some p =>
      obtain ⟨y, s2⟩ := p
      rw [hnext] at hx
      obtain ⟨hylt, hmem2, _⟩ := nextTopo_bounds hwf hmem hnext
      rcases List.mem_cons.mp hx with rfl | hx
      · exact hylt
      · exact ih hmem2 x hx

namespace DGIso

variable {α : Type} {key : α → String} {g1 g2 : DG α} {φ : Nat → Nat}

theorem memImage (iso : DGIso key g1 g2 φ) {u : Nat}
    (hu : u < g1.nodes.length) {S : Finset Nat}
    (hS : S ⊆ Finset.range g1.nodes.length) :
    φ u ∈ S.image φ ↔ u ∈ S := by
  constructor
  · intro h
    obtain ⟨w, hw, heq⟩ := Finset.mem_image.mp h
    have hwlt : w < g1.nodes.length := Finset.mem_range.mp (hS hw)
    rwa [← iso.inj w hwlt u hu heq]
  · exact Finset.mem_image_of_mem φ

theorem allPreds (iso : DGIso key g1 g2 φ) {v : Nat}
    (hv : v < g1.nodes.length) {S : Finset Nat}
    (hS : S ⊆ Finset.range g1.nodes.length) :
    ((predsOf g2 (φ v)).all (fun u => decide (u ∈ S.image φ))) =
      ((predsOf g1 v).all (fun u => decide (u ∈ S))) := by
  apply Bool.eq_iff_iff.mpr
  rw [List.all_eq_true, List.all_eq_true]
  constructor
  · intro h u hu
    have hult : u < g1.nodes.length := (iso.wf1 _ (mem_predsOf.mp hu)).1
    have hmem2 : φ u ∈ predsOf g2 (φ v) :=
      (iso.predsPerm hv).mem_iff.mpr (List.mem_map_of_mem φ hu)
    have := h _ hmem2
    rw [decide_eq_true_eq] at this
    rw [decide_eq_true_eq]
    exact (iso.memImage hult hS).mp this
  · intro h u hu
    have : u ∈ (predsOf g1 v).map φ := (iso.predsPerm hv).mem_iff.mp hu
    obtain ⟨w, hw, rfl⟩ := List.mem_map.mp this
    have := h w hw
    rw [decide_eq_true_eq] at this
    rw [decide_eq_true_eq]
    exact Finset.mem_image_of_mem φ this

theorem eligPerm (iso : DGIso key g1 g2 φ) {x : Nat}
    (hx : x < g1.nodes.length) {S : Finset Nat}
    (hS : S ⊆ Finset.range g1.nodes.length) :
    List.Perm (eligAfter g2 (S.image φ) (φ x)) ((eligAfter g1 S x).map φ) := by
  rw [eligAfter, eligAfter]
  have h1 := (iso.succsPerm hx).filter
    (fun v => (predsOf g2 v).all (fun u => decide (u ∈ S.image φ)))
  refine h1.trans ?_
  rw [List.filter_map]
  rw [show ((succsOf g1 x).filter
      ((fun v => (predsOf g2 v).all (fun u => decide (u ∈ S.image φ))) ∘ φ)) =
    ((succsOf g1 x).filter
      (fun v => (predsOf g1 v).all (fun u => decide (u ∈ S)))) from ?_]
  · apply List.filter_congr
    intro v hvmem
    have hvlt : v < g1.nodes.length := (iso.wf1 _ (mem_succsOf.mp hvmem)).2
    exact iso.allPreds hvlt hS

theorem keyOfEq (iso : DGIso key g1 g2 φ) {i : Nat}
    (hi : i < g1.nodes.length) : keyOf key g2 (φ i) = keyOf key g1 i := by
  rw [keyOf, keyOf, iso.keyeq i hi]

theorem keyOfInj2 (iso : DGIso key g1 g2 φ) {a b : Nat}
    (ha : a < g1.nodes.length) (hb : b < g1.nodes.length)
    (h : keyOf key g2 a = keyOf key g2 b) : a = b :=
  iso.keyInj2 a ha b hb (String.ext h)

theorem sortEq (iso : DGIso key g1 g2 φ) {l1 l2 : List Nat}
    (h : List.Perm l2 (l1.map φ)) (hl : ∀ v ∈ l1, v < g1.nodes.length) :
    sortKey key g2 l2 = (sortKey key g1 l1).map φ := by
  apply @sorted_perm_eq_of_injOn (keyOf key g2)
  · exact (sortKey_perm key g2 l2).trans
      (h.trans ((sortKey_perm key g1 l1).symm.map φ))
  · exact sortKey_sorted key g2 l2
  · rw [List.Sorted]
    rw [List.pairwise_map]
    have hs := sortKey_sorted key g1 l1
    rw [List.Sorted] at hs
    apply hs.imp_of_mem
    intro a b ha hb hab
    have halt : a < g1.nodes.length := hl a (mem_sortKey.mp ha)
    have hblt : b < g1.nodes.length := hl b (mem_sortKey.mp hb)
    rw [iso.keyOfEq halt, iso.keyOfEq hblt]
    exact hab
  · intro a ha b hb hk
    have ha2 : a ∈ l1.map φ := h.mem_iff.mp (mem_sortKey.mp ha)
    obtain ⟨u, hu, rfl⟩ := List.mem_map.mp ha2
    have hb2 : b ∈ (sortKey key g1 l1).map φ := hb
    obtain ⟨w, hw, rfl⟩ := List.mem_map.mp hb2
    have hult : u < g1.nodes.length := hl u hu
    have hwlt : w < g1.nodes.length := hl w (mem_sortKey.mp hw)
    exact iso.keyOfInj2 (iso.range u hult) (iso.range w hwlt) hk

/-- The pop loop commutes with the relabelling. -/
theorem nextAuxMap (iso : DGIso key g1 g2 φ) {S : Finset Nat}
    (hS : S ⊆ Finset.range g1.nodes.length) :
    ∀ {l : List Nat}, (∀ v ∈ l, v < g1.nodes.length) →
      nextAux key g2 (S.image φ) (l.map φ) =
        (nextAux key g1 S l).map
          (fun p => (φ p.1, ⟨p.2.ordered.image φ, p.2.tovisit.map φ⟩)) := by
  intro l
  induction l with
  | nil => intro _; simp [nextAux]
  | cons y t ih =>
    intro hl
    have hy : y < g1.nodes.length := hl y (by simp)
    have ht : ∀ v ∈ t, v < g1.nodes.length := fun v hv => hl v (by simp [hv])
    by_cases hmem : y ∈ S
    · have hmem2 : φ y ∈ S.image φ := Finset.mem_image_of_mem φ hmem
      simp only [List.map_cons, nextAux, if_pos hmem, if_pos hmem2]
      exact ih ht
    · have hmem2 : φ y ∉ S.image φ := fun hc => hmem ((iso.memImage hy hS).mp hc)
      simp only [List.map_cons, nextAux, if_neg hmem, if_neg hmem2,
        Option.map_some]
      have hins : insert (φ y) (S.image φ) = (insert y S).image φ := by
        rw [Finset.image_insert]
      have hinsS : insert y S ⊆ Finset.range g1.nodes.length := by
        intro z hz
        rcases Finset.mem_insert.mp hz with rfl | hz
        · exact Finset.mem_range.mpr hy
        · exact hS hz
      have helig : ∀ v ∈ eligAfter g1 (insert y S) y, v < g1.nodes.length := by
        intro v hv
        simp only [eligAfter, List.mem_filter] at hv
        exact (iso.wf1 _ (mem_succsOf.mp hv.1)).2
      congr 1
      refine Prod.ext rfl ?_
      simp only
      congr 1
      rw [hins]
      rw [iso.sortEq ((iso.eligPerm hy hinsS)) helig]
      simp [List.map_reverse]

/-- One `next()` call commutes with the relabelling. -/
theorem nextTopoMap (iso : DGIso key g1 g2 φ) {s1 s2 : TopoState}
    (ho : s2.ordered = s1.ordered.image φ)
    (htv : List.Perm s2.tovisit (s1.tovisit.map φ))
    (hmem : ∀ v ∈ s1.tovisit, v < g1.nodes.length)
    (hord : s1.ordered ⊆ Finset.range g1.nodes.length) :
    nextTopo key g2 s2 =
      (nextTopo key g1 s1).map
        (fun p => (φ p.1, ⟨p.2.ordered.image φ, p.2.tovisit.map φ⟩)) := by
  rw [nextTopo, nextTopo, ho]
  rw [iso.sortEq htv hmem]
  rw [← List.map_reverse]
  exact iso.nextAuxMap hord (fun v hv => hmem v (by
    rw [List.mem_reverse, mem_sortKey] at hv
    exact hv))

/-- A whole run commutes with the relabelling. -/
theorem runTopoMap (iso : DGIso key g1 g2 φ) :
    ∀ (fuel : Nat) {s1 s2 : TopoState},
      s2.ordered = s1.ordered.image φ →
      List.Perm s2.tovisit (s1.tovisit.map φ) →
      (∀ v ∈ s1.tovisit, v < g1.nodes.length) →
      s1.ordered ⊆ Finset.range g1.nodes.length →
      runTopo key g2 fuel s2 = (runTopo key g1 fuel s1).map φ := by
  intro fuel
  induction fuel with
  | zero => intro s1 s2 _ _ _ _; simp [runTopo]
  | succ n ih =>
    intro s1 s2 ho htv hmem hord
    rw [runTopo, runTopo, iso.nextTopoMap ho htv hmem hord]
    cases hnext : nextTopo key g1 s1 with
    | none => simp
    | some p =>
      obtain ⟨x, s1b⟩ := p
      obtain ⟨hxlt, hmem2, hordeq⟩ := nextTopo_bounds iso.wf1 hmem hnext
      have hord2 : s1b.ordered ⊆ Finset.range g1.nodes.length := by
        rw [hordeq]
        intro z hz
        rcases Finset.mem_insert.mp hz with rfl | hz
        · exact Finset.mem_range.mpr hxlt
        · exact hord hz
      show φ x :: runTopo key g2 n ⟨s1b.ordered.image φ, s1b.tovisit.map φ⟩ =
        List.map φ (x :: runTopo key g1 n s1b)
      rw [List.map_cons]
      congr 1
      exact ih rfl (List.Perm.refl _) hmem2 hord2

/-- The initial frontiers correspond under the relabelling. -/
theorem initPerm (iso : DGIso key g1 g2 φ) :
    List.Perm (initTopo g2).tovisit ((initTopo g1).tovisit.map φ) := by
  have hnd1 : (initTopo g1).tovisit.Nodup := by
    simp only [initTopo]
    exact (List.nodup_range _).filter _
  have hnd2 : (initTopo g2).tovisit.Nodup := by
    simp only [initTopo]
    exact (List.nodup_range _).filter _
  have hndm : ((initTopo g1).tovisit.map φ).Nodup := by
    apply hnd1.map_on
    intro x hx y hy hxy
    simp only [initTopo, List.mem_filter, List.mem_range] at hx hy
    exact iso.inj x hx.1 y hy.1 hxy
  rw [List.perm_ext_iff_of_nodup hnd2 hndm]
  intro z
  simp only [initTopo, List.mem_map, List.mem_filter, List.mem_range, iso.len]
  constructor
  · rintro ⟨hzlt, hze⟩
    obtain ⟨i, hi, rfl⟩ := iso.surj z hzlt
    refine ⟨i, ⟨hi, ?_⟩, rfl⟩
    have hp := iso.predsPerm hi
    rw [List.isEmpty_iff] at hze ⊢
    rw [hze] at hp
    have := hp.symm.length_eq
    simp only [List.length_nil, List.length_map] at this
    exact List.eq_nil_of_length_eq_zero this
  · rintro ⟨i, ⟨hi, hie⟩, rfl⟩
    refine ⟨iso.range i hi, ?_⟩
    have hp := iso.predsPerm hi
    rw [List.isEmpty_iff] at hie ⊢
    rw [hie] at hp
    simpa using hp.length_eq

/-- The emitted index sequences correspond under the relabelling. -/
theorem stableTopoMap (iso : DGIso key g1 g2 φ) :
    stableTopoList key g2 = (stableTopoList key g1).map φ := by
  rw [stableTopoList, stableTopoList, iso.len]
  exact iso.runTopoMap (g1.nodes.length + 1)
    (by simp [initTopo])
    iso.initPerm
    (by
      intro v hv
      simp only [initTopo, List.mem_filter, List.mem_range] at hv
      exact hv.1)
    (by simp [initTopo])

/-- The emitted name sequences are identical. -/
theorem stableTopoNames (iso : DGIso key g1 g2 φ) :
    (stableTopoList key g2).map (keyAt key g2) =
      (stableTopoList key g1).map (keyAt key g1) := by
  rw [iso.stableTopoMap, List.map_map]
  apply List.map_congr_left
  intro x hx
  have hxlt : x < g1.nodes.length :=
    runTopo_mem_lt iso.wf1 (g1.nodes.length + 1)
      (by
        intro v hv
        simp only [initTopo, List.mem_filter, List.mem_range] at hv
        exact hv.1) x hx
  exact iso.keyeq x hxlt

end DGIso

theorem keyAt_lt {α : Type} (key : α → String) (g : DG α) {i : Nat}
    (h : i < (g.nodes.map key).length) :
    keyAt key g i = (g.nodes.map key).get ⟨i, h⟩ := by
  rw [keyAt, List.getD_eq_getElem?_getD, List.getElem?_eq_getElem h]
  rfl

/-- A permutation of images under a map injective across the two lists
reflects to a permutation of the lists. -/
theorem perm_of_map_perm {β γ : Type} {f : β → γ} :
    ∀ {l1 l2 : List β}, List.Perm (l1.map f) (l2.map f) →
      (∀ a ∈ l1, ∀ b ∈ l2, f a = f b → a = b) → List.Perm l1 l2
  | [], l2, hp, _ => by
    have h2 : l2.map f = [] := hp.nil_eq.symm
    rw [List.map_eq_nil_iff] at h2
    rw [h2]
  | a :: t1, l2, hp, hinj => by
    have hfa : f a ∈ l2.map f := hp.mem_iff.mp (by simp)
    obtain ⟨b, hb, hfb⟩ := List.mem_map.mp hfa
    have hab : a = b := hinj a (by simp) b hb hfb.symm
    subst hab
    obtain ⟨u, v, rfl⟩ := List.append_of_mem hb
    have hp2 : List.Perm (f a :: t1.map f)
        (f a :: (u.map f ++ v.map f)) := by
      refine (hp.trans ?_)
      rw [List.map_append, List.map_cons]
      exact List.perm_middle
    have hp3 : List.Perm (t1.map f) ((u ++ v).map f) := by
      rw [List.map_append]
      exact hp2.cons_inv
    have ih : List.Perm t1 (u ++ v) :=
      perm_of_map_perm hp3 (fun x hx y hy hxy =>
        hinj x (by simp [hx]) y (by
          rcases List.mem_append.mp hy with hy | hy
          · simp [hy]
          · simp [hy]) hxy)
    exact (ih.cons a).trans List.perm_middle.symm

/-- From name-level agreement (same weight multiset with distinct keys, same
edge multiset written through keys) a relabelling satisfying `DGIso` exists. -/
theorem dgIso_of_names {α : Type} (key : α → String) (g1 g2 : DG α)
    (hwf1 : WFdg g1) (hwf2 : WFdg g2)
    (hnodup : (g1.nodes.map key).Nodup)
    (hperm : List.Perm (g1.nodes.map key) (g2.nodes.map key))
    (hedges : List.Perm
      (g1.edges.map (fun e => (keyAt key g1 e.1, keyAt key g1 e.2)))
      (g2.edges.map (fun e => (keyAt key g2 e.1, keyAt key g2 e.2)))) :
    ∃ φ, DGIso key g1 g2 φ := by
  classical
  set names1 := g1.nodes.map key with hn1
  set names2 := g2.nodes.map key with hn2
  have hnodup2 : names2.Nodup := hperm.nodup_iff.mp hnodup
  have hlen : names2.length = names1.length := hperm.length_eq.symm
  have hN1 : names1.length = g1.nodes.length := by simp [hn1]
  have hN2 : names2.length = g2.nodes.length := by simp [hn2]
  refine ⟨fun i => names2.indexOf (names1.getD i ""), ?_⟩
  have hrange : ∀ i, i < g1.nodes.length →
      names2.indexOf (names1.getD i "") < g1.nodes.length := by
    intro i hi
    have hi1 : i < names1.length := by omega
    have hmem : names1.getD i "" ∈ names2 := by
      apply hperm.mem_iff.mp
      rw [List.getD_eq_getElem?_getD, List.getElem?_eq_getElem hi1]
      exact List.getElem_mem hi1
    have := List.indexOf_lt_length.mpr hmem
    omega
  have hkey : ∀ i, i < g1.nodes.length →
      keyAt key g2 (names2.indexOf (names1.getD i "")) = keyAt key g1 i := by
    intro i hi
    have hi1 : i < names1.length := by omega
    have hmem : names1.getD i "" ∈ names2 := by
      apply hperm.mem_iff.mp
      rw [List.getD_eq_getElem?_getD, List.getElem?_eq_getElem hi1]
      exact List.getElem_mem hi1
    have hidx : names2.indexOf (names1.getD i "") < names2.length :=
      List.indexOf_lt_length.mpr hmem
    rw [keyAt_lt key g2 (by rw [← hn2]; omega)]
    rw [keyAt_lt key g1 (by rw [← hn1]; omega)]
    have h1 : names2.get ⟨names2.indexOf (names1.getD i ""), hidx⟩ =
        names1.getD i "" := List.indexOf_get hidx
    have h2 : names1.getD i "" = names1.get ⟨i, hi1⟩ := by
      rw [List.getD_eq_getElem?_getD, List.getElem?_eq_getElem hi1]
      rfl
    exact h1.trans h2
  have hkeyinj1 : ∀ i, i < g1.nodes.length → ∀ j, j < g1.nodes.length →
      keyAt key g1 i = keyAt key g1 j → i = j := by
    intro i hi j hj hk
    have hi1 : i < names1.length := by omega
    have hj1 : j < names1.length := by omega
    rw [keyAt_lt key g1 (by rw [← hn1]; omega),
      keyAt_lt key g1 (by rw [← hn1]; omega)] at hk
    simp only [List.get_eq_getElem] at hk
    exact (hnodup.getElem_inj_iff).mp hk
  have hinj : ∀ i, i < g1.nodes.length → ∀ j, j < g1.nodes.length →
      names2.indexOf (names1.getD i "") = names2.indexOf (names1.getD j "") →
      i = j := by
    intro i hi j hj he
    apply hkeyinj1 i hi j hj
    rw [← hkey i hi, ← hkey j hj, he]
  have hkeyinj2 : ∀ a, a < g2.nodes.length → ∀ b, b < g2.nodes.length →
      keyAt key g2 a = keyAt key g2 b → a = b := by
    intro a ha b hb hk
    rw [keyAt_lt key g2 (by rw [← hn2]; omega),
      keyAt_lt key g2 (by rw [← hn2]; omega)] at hk
    simp only [List.get_eq_getElem] at hk
    exact (hnodup2.getElem_inj_iff).mp hk
  have hg2len : g2.nodes.length = g1.nodes.length := by omega
  have hsurj : ∀ j, j < g1.nodes.length →
      ∃ i, i < g1.nodes.length ∧ names2.indexOf (names1.getD i "") = j := by
    intro j hj
    have hj2 : j < names2.length := by omega
    have hjmem : names2.get ⟨j, hj2⟩ ∈ names1 :=
      hperm.mem_iff.mpr (List.get_mem names2 j hj2)
    obtain ⟨i, hi1, hie⟩ := List.mem_iff_getElem.mp hjmem
    refine ⟨i, by omega, ?_⟩
    have hgd : names1.getD i "" = names2.get ⟨j, hj2⟩ := by
      rw [List.getD_eq_getElem?_getD, List.getElem?_eq_getElem hi1, hie]
      rfl
    rw [hgd]
    have hidx : names2.indexOf (names2.get ⟨j, hj2⟩) < names2.length :=
      List.indexOf_lt_length.mpr (List.get_mem names2 j hj2)
    have := List.indexOf_get hidx
    simp only [List.get_eq_getElem] at this
    exact (hnodup2.getElem_inj_iff).mp this
  refine ⟨by omega, hrange, hkey, hinj, hsurj, ?_, hwf1, hwf2, hkeyinj1⟩
  -- edge multiset correspondence via counts
  set φ := fun i => names2.indexOf (names1.getD i "") with hφ
  set nm1 := fun e : Nat × Nat => (keyAt key g1 e.1, keyAt key g1 e.2) with hnm1
  set nm2 := fun e : Nat × Nat => (keyAt key g2 e.1, keyAt key g2 e.2) with hnm2
  have hmapeq : g1.edges.map nm1 =
      (g1.edges.map (fun e => (φ e.1, φ e.2))).map nm2 := by
    rw [List.map_map]
    apply List.map_congr_left
    intro e he
    simp only [Function.comp_apply, hnm1, hnm2]
    rw [hkey e.1 (hwf1 e he).1, hkey e.2 (hwf1 e he).2]
  have hinj2pair : ∀ b c : Nat × Nat,
      b.1 < g2.nodes.length → b.2 < g2.nodes.length →
      c.1 < g2.nodes.length → c.2 < g2.nodes.length →
      nm2 b = nm2 c → b = c := by
    intro b c hb1 hb2 hc1 hc2 hbc
    simp only [hnm2, Prod.mk.injEq] at hbc
    exact Prod.ext (hkeyinj2 _ hb1 _ hc1 hbc.1) (hkeyinj2 _ hb2 _ hc2 hbc.2)
  apply @perm_of_map_perm _ _ nm2
  · rw [← hmapeq]
    exact hedges.symm
  · intro a ha b hb hab
    obtain ⟨e, he, rfl⟩ := List.mem_map.mp hb
    refine hinj2pair a _ (hwf2 a ha).1 (hwf2 a ha).2 ?_ ?_ hab
    · simp only [hg2len]
      exact hrange e.1 (hwf1 e he).1
    · simp only [hg2len]
      exact hrange e.2 (hwf1 e he).2

/-! ### Embedding of `file_dag.rs`

The `FileNode` consumed by `file_dag.rs` carries `prepend`/`append` flags
selecting one of the three per-layer graphs; the configured layer sequence
is [prepend, normal, append]. -/

structure FileNodeD where
  name : String
  path : String
  deps : List String
  ensure_exists : List String
  prepend : Bool
  append : Bool
deriving DecidableEq, Repr

instance : Inhabited FileNodeD := ⟨⟨"", "", [], [], false, false⟩⟩

/-- `FileNode`'s `Ord`: comparison solely by `name`. -/
def nodeKey : FileNodeD → String := FileNodeD.name

/-- `TopCatError` (`exceptions.rs`), restricted to the variants reachable in
the embedded core (the `Io` variant wraps file-system failures). -/
inductive TCError where
  | InvalidFileHeader (path : String) (msg : String)
  | GraphMissing
  | NameClash (name : String) (path1 : String) (path2 : String)
  | MissingExist (name : String) (missing : String)
  | MissingDependency (name : String) (missing : String)
  | InvalidDependency (name : String) (dep : String)
  | CyclicDependency (cycles : List (List FileNodeD))
  | UnknownError (msg : String)
deriving DecidableEq, Repr

/-- The three per-layer graphs owned by `TCGraph`. -/
structure GraphsState where
  prependG : DG FileNodeD
  appendG : DG FileNodeD
  normalG : DG FileNodeD
deriving DecidableEq, Repr

def emptyGraphs : GraphsState := ⟨⟨[], []⟩, ⟨[], []⟩, ⟨[], []⟩⟩

/-- `graph.add_node`: petgraph appends the weight, returning the next index. -/
def addNodeTo (g : DG FileNodeD) (fn : FileNodeD) : DG FileNodeD :=
  { g with nodes := g.nodes ++ [fn] }

/-- `graph.add_edge` between already-assigned indices. -/
def addEdgeD (g : DG FileNodeD) (i j : Nat) : DG FileNodeD :=
  { g with edges := g.edges ++ [(i, j)] }

/-- The `*_index_map` entry for a name: the insertion position of the node
of that name in the layer's graph. -/
def indexOfName (g : DG FileNodeD) (n : String) : Nat :=
  g.nodes.findIdx (fun fn => fn.name == n)

/-- `name_map.get(name)` (hash-map lookup over uniquely named nodes). -/
def lookupName (nm : List FileNodeD) (d : String) : Option FileNodeD :=
  nm.find? (fun fn => fn.name == d)

/-- `add_nodes_to_graphs`: place every node into the graph selected by its
`prepend`/`append` flags. -/
def addNodesToGraphs : List FileNodeD → GraphsState → GraphsState
  | [], gs => gs
  | fn :: rest, gs =>
    if fn.prepend then
      addNodesToGraphs rest { gs with prependG := addNodeTo gs.prependG fn }
    else if fn.append then
      addNodesToGraphs rest { gs with appendG := addNodeTo gs.appendG fn }
    else
      addNodesToGraphs rest { gs with normalG := addNodeTo gs.normalG fn }

/-- The body of `validate_dependencies`' `for dep in &file_node.deps` loop:
resolve the dependency in the global node map, reject invalid cross-layer
directions, add a same-layer edge dependency→dependent. -/
def addDepEdge (nm : List FileNodeD) (gs : GraphsState) (n : FileNodeD)
    (dep : String) : Except TCError GraphsState :=
  match lookupName nm dep with
  | none => .error (.MissingDependency n.name dep)
  | some depNode =>
    if n.prepend then
      if !depNode.prepend then .error (.InvalidDependency n.name dep)
      else
        let g2 := addEdgeD gs.prependG (indexOfName gs.prependG dep)
          (indexOfName gs.prependG n.name)
        .ok { gs with prependG := g2 }
    else if n.append then
      if depNode.append then
        let g2 := addEdgeD gs.appendG (indexOfName gs.appendG dep)
          (indexOfName gs.appendG n.name)
        .ok { gs with appendG := g2 }
      else .ok gs
    else
      if depNode.append then .error (.InvalidDependency n.name dep)
      else if !depNode.prepend then
        let g2 := addEdgeD gs.normalG (indexOfName gs.normalG dep)
          (indexOfName gs.normalG n.name)
        .ok { gs with normalG := g2 }
      else .ok gs

/-- The `for ensure in &file_node.ensure_exists` loop. -/
def checkEnsures (nm : List FileNodeD) (n : FileNodeD) :
    List String → Except TCError Unit
  | [] => .ok ()
  | e :: rest =>
    if (lookupName nm e).isSome then checkEnsures nm n rest
    else .error (.MissingExist n.name e)

def addDepEdges (nm : List FileNodeD) (n : FileNodeD) :
    GraphsState → List String → Except TCError GraphsState
  | gs, [] => .ok gs
  | gs, d :: rest =>
    match addDepEdge nm gs n d with
    | .error e => .error e
    | .ok gs2 => addDepEdges nm n gs2 rest

def validateNode (nm : List FileNodeD) (gs : GraphsState) (n : FileNodeD) :
    Except TCError GraphsState :=
  match checkEnsures nm n n.ensure_exists with
  | .error e => .error e
  | .ok _ => addDepEdges nm n gs n.deps

def validateAll (nm : List FileNodeD) :
    GraphsState → List FileNodeD → Except TCError GraphsState
  | gs, [] => .ok gs
  | gs, n :: rest =>
    match validateNode nm gs n with
    | .error e => .error e
    | .ok gs2 => validateAll nm gs2 rest

/-- `validate_dependencies`: process every node of the name map. -/
def validateDependencies (nm : List FileNodeD) (gs : GraphsState) :
    Except TCError GraphsState :=
  validateAll nm gs nm

/-- `convert_cycle_indexes_to_cycle_nodes ∘ cycles()`. -/
def cyclesAsNodes (g : DG FileNodeD) : List (List FileNodeD) :=
  (elementaryCycles g).map (fun c => c.map (fun i => g.nodes.getD i default))

/-- `check_cyclic_dependencies`: per-layer cycle detection (prepend, then
normal, then append), aggregating all elementary cycles. -/
def checkCyclicDependencies (gs : GraphsState) : Except TCError Unit :=
  let cycles :=
    (if isCyclicDG gs.prependG then cyclesAsNodes gs.prependG else []) ++
    (if isCyclicDG gs.normalG then cyclesAsNodes gs.normalG else []) ++
    (if isCyclicDG gs.appendG then cyclesAsNodes gs.appendG else [])
  if cycles.isEmpty then .ok () else .error (.CyclicDependency cycles)

/-- `FileNodeError` (`exceptions.rs`), the recoverable-or-fatal parse
outcomes consumed by `build_graph`. -/
inductive FileNodeErrorD where
  | TooManyNames (path : String) (names : List String)
  | NoNameDefined (path : String)
deriving DecidableEq, Repr

/-- `handle_file_node_error`: `NoNameDefined` is recovered (the file is
skipped), `TooManyNames` becomes a fatal `InvalidFileHeader`. -/
def handleFileNodeError : FileNodeErrorD → Except TCError Unit
  | .NoNameDefined _ => .ok ()
  | .TooManyNames p s => .error (.InvalidFileHeader p
      ("Too many names declared: " ++ String.intercalate ", " s))

/-- The outcome of `FileNode::from_file` for one candidate file; the file
loop of `build_graph` consumes these. -/
abbrev ParseEntry := Except FileNodeErrorD FileNodeD

instance : DecidableEq ParseEntry := fun a b =>
  match a, b with
  | .ok x, .ok y =>
    if h : x = y then isTrue (by rw [h]) else isFalse (by simp [h])
  | .ok _, .error _ => isFalse (by simp)
  | .error _, .ok _ => isFalse (by simp)
  | .error x, .error y =>
    if h : x = y then isTrue (by rw [h]) else isFalse (by simp [h])

/-- The file loop of `build_graph`: skip recoverable errors, abort on fatal
ones, and register nodes detecting name clashes; returns the registered
nodes and the first error, if any. -/
def registerAux : List ParseEntry → List FileNodeD →
    List FileNodeD × Option TCError
  | [], acc => (acc, none)
  | .error e :: rest, acc =>
    match handleFileNodeError e with
    | .error te => (acc, some te)
    | .ok _ => registerAux rest acc
  | .ok fn :: rest, acc =>
    match lookupName acc fn.name with
    | some other => (acc, some (.NameClash fn.name fn.path other.path))
    | none => registerAux rest (acc ++ [fn])

/-- The orchestrator state: the name-keyed node map, the per-layer graphs
and the built flag (`path_map` holds the same nodes keyed by path and is
not read by the embedded operations). -/
structure TCState where
  name_map : List FileNodeD
  gs : GraphsState
  graph_is_built : Bool
deriving DecidableEq, Repr

/-- `build_graph` (file discovery abstracted into the entry list): register
parsed nodes, place them into the layer graphs, validate dependencies, gate
on cycles, then set the built flag.  On failure the flag stays unset. -/
def buildGraph (entries : List ParseEntry) : TCState × Except TCError Unit :=
  match registerAux entries [] with
  | (nm, some e) => (⟨nm, emptyGraphs, false⟩, .error e)
  | (nm, none) =>
    match validateDependencies nm (addNodesToGraphs nm emptyGraphs) with
    | .error e => (⟨nm, addNodesToGraphs nm emptyGraphs, false⟩, .error e)
    | .ok gs1 =>
      match checkCyclicDependencies gs1 with
      | .error e => (⟨nm, gs1, false⟩, .error e)
      | .ok _ => (⟨nm, gs1, true⟩, .ok ())

def startsWithAny (s : String) (ps : List String) : Bool :=
  ps.any (fun p => s.startsWith p)

/-- The node-name filter of `get_sorted_files`
(`include_node_prefixes`/`exclude_node_prefixes` matching). -/
def shouldIncludeNode (inc exc : Option (List String)) (fn : FileNodeD) : Bool :=
  match inc, exc with
  | some i, some e => startsWithAny fn.name i && !(startsWithAny fn.name e)
  | some i, none => startsWithAny fn.name i
  | none, some e => !(startsWithAny fn.name e)
  | none, none => true

/-- The per-layer loop of `get_sorted_files`: drain a fresh `StableTopo`,
read each emitted node's weight (an unknown index is an internal error) and
keep the paths that pass the name filter. -/
def collectLayer (g : DG FileNodeD) (inc exc : Option (List String)) :
    List Nat → Except TCError (List String)
  | [] => .ok []
  | i :: rest =>
    match g.nodes.get? i with
    | none => .error (.UnknownError "Node not found")
    | some fn =>
      match collectLayer g inc exc rest with
      | .error e => .error e
      | .ok tail => .ok (if shouldIncludeNode inc exc fn
          then fn.path :: tail else tail)

/-- `get_sorted_files` in the configuration without a subdirectory filter
(the `subdir_filter: None` branch of the source): requires the built flag,
then concatenates the per-layer stable-topo outputs in layer order. -/
def getSortedFiles (st : TCState) (inc exc : Option (List String)) :
    Except TCError (List String) :=
  if !st.graph_is_built then .error .GraphMissing
  else
    match collectLayer st.gs.prependG inc exc
        (stableTopoList nodeKey st.gs.prependG) with
    | .error e => .error e
    | .ok l1 =>
      match collectLayer st.gs.normalG inc exc
          (stableTopoList nodeKey st.gs.normalG) with
      | .error e => .error e
      | .ok l2 =>
        match collectLayer st.gs.appendG inc exc
            (stableTopoList nodeKey st.gs.appendG) with
        | .error e => .error e
        | .ok l3 => .ok (l1 ++ l2 ++ l3)

/-- Index of a node's layer in the configured layer sequence
[prepend, normal, append]. -/
def layerIdxD (n : FileNodeD) : Nat :=
  if n.prepend then 0 else if n.append then 2 else 1

/-- A node produced by the header parser carries at most one layer tag. -/
abbrev flagsOk (n : FileNodeD) : Prop := ¬(n.prepend = true ∧ n.append = true)

/-- The layer graph a node is placed into. -/
def layerGraphOf (gs : GraphsState) (n : FileNodeD) : DG FileNodeD :=
  if n.prepend then gs.prependG else if n.append then gs.appendG else gs.normalG

/-! ### Lemmas about `validate_dependencies` and `build_graph` -/

/-- The dependency directions `validate_dependencies` rejects: the
dependent's layer is ordered before the dependency's layer. -/
def invalidCase (n dn : FileNodeD) : Bool :=
  (n.prepend && !dn.prepend) || (!n.prepend && !n.append && dn.append)

/-- The dependency pairs for which `validate_dependencies` adds an edge:
dependent and dependency share a layer. -/
def edgeCase (n dn : FileNodeD) : Bool :=
  (n.prepend && dn.prepend) || (!n.prepend && n.append && dn.append) ||
    (!n.prepend && !n.append && !dn.append && !dn.prepend)

/-- The effect of adding the edge for dependency `d` of node `n`. -/
def updEdge (gs : GraphsState) (n : FileNodeD) (d : String) : GraphsState :=
  if n.prepend then
    let g2 := addEdgeD gs.prependG (indexOfName gs.prependG d)
      (indexOfName gs.prependG n.name)
    { gs with prependG := g2 }
  else if n.append then
    let g2 := addEdgeD gs.appendG (indexOfName gs.appendG d)
      (indexOfName gs.appendG n.name)
    { gs with appendG := g2 }
  else
    let g2 := addEdgeD gs.normalG (indexOfName gs.normalG d)
      (indexOfName gs.normalG n.name)
    { gs with normalG := g2 }

/-- Branch characterization of the dependency-edge step. -/
theorem addDepEdge_char (nm : List FileNodeD) (gs : GraphsState)
    (n : FileNodeD) (dep : String) :
    addDepEdge nm gs n dep =
      match lookupName nm dep with
      | none => .error (.MissingDependency n.name dep)
      | some dn =>
        if invalidCase n dn then .error (.InvalidDependency n.name dep)
        else if edgeCase n dn then .ok (updEdge gs n dep)
        else .ok gs := by
  rw [addDepEdge]
  cases lookupName nm dep with
  | none => rfl
  | some dn =>
    simp only
    cases hnp : n.prepend <;> cases hna : n.append <;>
      cases hdp : dn.prepend <;> cases hda : dn.append <;>
        simp [invalidCase, edgeCase, updEdge, hnp, hna, hdp, hda]

/-- Which layer graph a node goes to, as a tag. -/
inductive LayerTag where
  | prependT
  | normalT
  | appendT
deriving DecidableEq, Repr

def tagGraph (gs : GraphsState) : LayerTag → DG FileNodeD
  | .prependT => gs.prependG
  | .normalT => gs.normalG
  | .appendT => gs.appendG

def tagOf (n : FileNodeD) : LayerTag :=
  if n.prepend then .prependT else if n.append then .appendT else .normalT

theorem layerGraphOf_eq_tag (gs : GraphsState) (n : FileNodeD) :
    layerGraphOf gs n = tagGraph gs (tagOf n) := by
  rw [layerGraphOf, tagOf]
  cases hnp : n.prepend <;> cases hna : n.append <;> simp [tagGraph]

/-- Node placement: each layer graph receives exactly the nodes carrying its
flags, in iteration order, and no edges. -/
theorem addNodes_spec : ∀ (l : List FileNodeD) (gs : GraphsState),
    addNodesToGraphs l gs =
      ⟨⟨gs.prependG.nodes ++ l.filter (fun n => n.prepend), gs.prependG.edges⟩,
       ⟨gs.appendG.nodes ++ l.filter (fun n => !n.prepend && n.append),
         gs.appendG.edges⟩,
       ⟨gs.normalG.nodes ++ l.filter (fun n => !n.prepend && !n.append),
         gs.normalG.edges⟩⟩
  | [], gs => by simp [addNodesToGraphs]
  | fn :: rest, gs => by
    cases hnp : fn.prepend with
    | true =>
      rw [addNodesToGraphs, if_pos hnp, addNodes_spec rest]
      simp [addNodeTo, hnp, List.filter_cons, List.append_assoc]
    | false =>
      cases hna : fn.append with
      | true =>
        rw [addNodesToGraphs, if_neg (by simp [hnp]), if_pos hna,
          addNodes_spec rest]
        simp [addNodeTo, hnp, hna, List.filter_cons, List.append_assoc]
      | false =>
        rw [addNodesToGraphs, if_neg (by simp [hnp]), if_neg (by simp [hna]),
          addNodes_spec rest]
        simp [addNodeTo, hnp, hna, List.filter_cons, List.append_assoc]

/-- Graph extension: validation only appends edges, never touching nodes. -/
def GExt (g g2 : DG FileNodeD) : Prop :=
  g2.nodes = g.nodes ∧ ∀ e ∈ g.edges, e ∈ g2.edges

def GSExt (gs gs2 : GraphsState) : Prop :=
  GExt gs.prependG gs2.prependG ∧ GExt gs.appendG gs2.appendG ∧
    GExt gs.normalG gs2.normalG

theorem GSExt.refl {gs : GraphsState} : GSExt gs gs :=
  ⟨⟨Eq.refl _, fun _ h => h⟩, ⟨Eq.refl _, fun _ h => h⟩,
    ⟨Eq.refl _, fun _ h => h⟩⟩

theorem GSExt.trans {a b c : GraphsState} (h1 : GSExt a b) (h2 : GSExt b c) :
    GSExt a c :=
  ⟨⟨h2.1.1.trans h1.1.1, fun e he => h2.1.2 e (h1.1.2 e he)⟩,
   ⟨h2.2.1.1.trans h1.2.1.1, fun e he => h2.2.1.2 e (h1.2.1.2 e he)⟩,
   ⟨h2.2.2.1.trans h1.2.2.1, fun e he => h2.2.2.2 e (h1.2.2.2 e he)⟩⟩

theorem GSExt.tag {gs gs2 : GraphsState} (h : GSExt gs gs2) (t : LayerTag) :
    GExt (tagGraph gs t) (tagGraph gs2 t) := by
  cases t with
  | prependT => exact h.1
  | appendT => exact h.2.1
  | normalT => exact h.2.2

theorem updEdge_ext (gs : GraphsState) (n : FileNodeD) (d : String) :
    GSExt gs (updEdge gs n d) := by
  cases hnp : n.prepend <;> cases hna : n.append <;>
    simp only [updEdge, hnp, hna, Bool.false_eq_true, if_true, if_false,
      ite_true, ite_false] <;>
    refine ⟨⟨rfl, ?_⟩, ⟨rfl, ?_⟩, ⟨rfl, ?_⟩⟩ <;>
    (intro e he; simp [addEdgeD, he])

/-- The freshly added edge, written with the (stable) index maps. -/
def newEdgeOf (gs : GraphsState) (n : FileNodeD) (d : String) : Nat × Nat :=
  (indexOfName (tagGraph gs (tagOf n)) d,
    indexOfName (tagGraph gs (tagOf n)) n.name)

theorem updEdge_adds (gs : GraphsState) (n : FileNodeD) (d : String) :
    newEdgeOf gs n d ∈ (tagGraph (updEdge gs n d) (tagOf n)).edges := by
  rw [updEdge, newEdgeOf, tagOf]
  cases hnp : n.prepend <;> cases hna : n.append <;>
    simp [tagGraph, addEdgeD, hnp, hna]

theorem updEdge_edge_src {gs : GraphsState} {n : FileNodeD} {d : String}
    {t : LayerTag} {e : Nat × Nat}
    (he : e ∈ (tagGraph (updEdge gs n d) t).edges) :
    e ∈ (tagGraph gs t).edges ∨ (t = tagOf n ∧ e = newEdgeOf gs n d) := by
  rw [updEdge] at he
  rw [newEdgeOf, tagOf] at *
  cases hnp : n.prepend <;> cases hna : n.append <;> cases t <;>
    simp only [hnp, hna, if_true, if_false, Bool.false_eq_true,
      tagGraph, addEdgeD] at he ⊢ <;>
    first
      | (exact Or.inl he)
      | (rcases List.mem_append.mp he with h | h
         · exact Or.inl h
         · simp only [List.mem_singleton] at h
           simp [h])

/-- `GExt` keeps the index maps stable. -/
theorem GExt.idx {g g2 : DG FileNodeD} (h : GExt g g2) (d : String) :
    indexOfName g2 d = indexOfName g d := by
  rw [indexOfName, indexOfName, h.1]

theorem GSExt.newEdge {gs gs2 : GraphsState} (h : GSExt gs gs2)
    (n : FileNodeD) (d : String) : newEdgeOf gs2 n d = newEdgeOf gs n d := by
  rw [newEdgeOf, newEdgeOf, (h.tag (tagOf n)).idx, (h.tag (tagOf n)).idx]

theorem addDepEdge_none {nm : List FileNodeD} (gs : GraphsState)
    (n : FileNodeD) {d : String} (hlk : lookupName nm d = none) :
    addDepEdge nm gs n d = .error (.MissingDependency n.name d) := by
  rw [addDepEdge_char, hlk]

theorem addDepEdge_invalid {nm : List FileNodeD} (gs : GraphsState)
    {n : FileNodeD} {d : String} {dn : FileNodeD}
    (hlk : lookupName nm d = some dn) (hi : invalidCase n dn = true) :
    addDepEdge nm gs n d = .error (.InvalidDependency n.name d) := by
  rw [addDepEdge_char, hlk]
  simp [hi]

theorem addDepEdge_edge {nm : List FileNodeD} (gs : GraphsState)
    {n : FileNodeD} {d : String} {dn : FileNodeD}
    (hlk : lookupName nm d = some dn) (hi : invalidCase n dn = false)
    (he : edgeCase n dn = true) :
    addDepEdge nm gs n d = .ok (updEdge gs n d) := by
  rw [addDepEdge_char, hlk]
  simp [hi, he]

theorem addDepEdge_pass {nm : List FileNodeD} (gs : GraphsState)
    {n : FileNodeD} {d : String} {dn : FileNodeD}
    (hlk : lookupName nm d = some dn) (hi : invalidCase n dn = false)
    (he : edgeCase n dn = false) :
    addDepEdge nm gs n d = .ok gs := by
  rw [addDepEdge_char, hlk]
  simp [hi, he]

theorem addDepEdge_ok_ext {nm : List FileNodeD} {gs : GraphsState}
    {n : FileNodeD} {d : String} {gs2 : GraphsState}
    (h : addDepEdge nm gs n d = .ok gs2) : GSExt gs gs2 := by
  cases hlk : lookupName nm d with
  | none => rw [addDepEdge_none gs n hlk] at h; exact absurd h (by simp)
  | some dn =>
    by_cases hi : invalidCase n dn
    · rw [addDepEdge_invalid gs hlk hi] at h; exact absurd h (by simp)
    · rw [Bool.not_eq_true] at hi
      by_cases he : edgeCase n dn
      · rw [addDepEdge_edge gs hlk hi he] at h
        simp only [Except.ok.injEq] at h
        rw [← h]
        exact updEdge_ext gs n d
      · rw [Bool.not_eq_true] at he
        rw [addDepEdge_pass gs hlk hi he] at h
        simp only [Except.ok.injEq] at h
        rw [← h]
        exact GSExt.refl

theorem addDepEdges_ext {nm : List FileNodeD} {n : FileNodeD} :
    ∀ {l : List String} {gs gs2 : GraphsState},
      addDepEdges nm n gs l = .ok gs2 → GSExt gs gs2
  | [], gs, gs2, h => by
    rw [addDepEdges] at h
    simp only [Except.ok.injEq] at h
    rw [← h]; exact GSExt.refl
  | d :: rest, gs, gs2, h => by
    rw [addDepEdges] at h
    cases hstep : addDepEdge nm gs n d with
    | error e => rw [hstep] at h; exact absurd h (by simp)
    | ok gsm =>
      rw [hstep] at h
      exact (addDepEdge_ok_ext hstep).trans (addDepEdges_ext h)

theorem validateNode_ext {nm : List FileNodeD} {gs : GraphsState}
    {n : FileNodeD} {gs2 : GraphsState}
    (h : validateNode nm gs n = .ok gs2) : GSExt gs gs2 := by
  rw [validateNode] at h
  cases he : checkEnsures nm n n.ensure_exists with
  | error e => rw [he] at h; exact absurd h (by simp)
  | ok u => rw [he] at h; exact addDepEdges_ext h

theorem validateAll_ext {nm : List FileNodeD} :
    ∀ {l : List FileNodeD} {gs gs2 : GraphsState},
      validateAll nm gs l = .ok gs2 → GSExt gs gs2
  | [], gs, gs2, h => by
    rw [validateAll] at h
    simp only [Except.ok.injEq] at h
    rw [← h]; exact GSExt.refl
  | m :: rest, gs, gs2, h => by
    rw [validateAll] at h
    cases hstep : validateNode nm gs m with
    | error e => rw [hstep] at h; exact absurd h (by simp)
    | ok gsm =>
      rw [hstep] at h
      exact (validateNode_ext hstep).trans (validateAll_ext h)

theorem edgeCase_not_invalid {n dn : FileNodeD} (he : edgeCase n dn = true) :
    invalidCase n dn = false := by
  cases hnp : n.prepend <;> cases hna : n.append <;>
    cases hdp : dn.prepend <;> cases hda : dn.append <;>
      simp_all [edgeCase, invalidCase]

theorem addDepEdges_present {nm : List FileNodeD} {n : FileNodeD}
    {d : String} {dn : FileNodeD} (hlk : lookupName nm d = some dn)
    (hec : edgeCase n dn = true) :
    ∀ {l : List String} {gs gs2 : GraphsState},
      addDepEdges nm n gs l = .ok gs2 → d ∈ l →
      newEdgeOf gs n d ∈ (tagGraph gs2 (tagOf n)).edges
  | [], _, _, _, hd => by simp at hd
  | d2 :: rest, gs, gs2, h, hd => by
    rw [addDepEdges] at h
    cases hstep : addDepEdge nm gs n d2 with
    | error e => rw [hstep] at h; exact absurd h (by simp)
    | ok gsm =>
      rw [hstep] at h
      by_cases hdd : d = d2
      · subst hdd
        rw [addDepEdge_edge gs hlk (edgeCase_not_invalid hec) hec] at hstep
        simp only [Except.ok.injEq] at hstep
        rw [← hstep] at h
        exact ((addDepEdges_ext h).tag (tagOf n)).2 _ (updEdge_adds gs n d)
      · have hd2 : d ∈ rest := by
          rcases List.mem_cons.mp hd with h1 | h1
          · exact absurd h1 hdd
          · exact h1
        have := addDepEdges_present hlk hec h hd2
        rwa [(addDepEdge_ok_ext hstep).newEdge] at this

theorem validateNode_present {nm : List FileNodeD} {gs : GraphsState}
    {n : FileNodeD} {gs2 : GraphsState} {d : String} {dn : FileNodeD}
    (h : validateNode nm gs n = .ok gs2) (hd : d ∈ n.deps)
    (hlk : lookupName nm d = some dn) (hec : edgeCase n dn = true) :
    newEdgeOf gs n d ∈ (tagGraph gs2 (tagOf n)).edges := by
  rw [validateNode] at h
  cases he : checkEnsures nm n n.ensure_exists with
  | error e => rw [he] at h; exact absurd h (by simp)
  | ok u =>
    rw [he] at h
    exact addDepEdges_present hlk hec h hd

theorem validateAll_present {nm : List FileNodeD} {n : FileNodeD}
    {d : String} {dn : FileNodeD} (hlk : lookupName nm d = some dn)
    (hec : edgeCase n dn = true) :
    ∀ {l : List FileNodeD} {gs gs2 : GraphsState},
      validateAll nm gs l = .ok gs2 → n ∈ l → d ∈ n.deps →
      newEdgeOf gs n d ∈ (tagGraph gs2 (tagOf n)).edges
  | [], _, _, _, hn, _ => by simp at hn
  | m :: rest, gs, gs2, h, hn, hd => by
    rw [validateAll] at h
    cases hstep : validateNode nm gs m with
    | error e => rw [hstep] at h; exact absurd h (by simp)
    | ok gsm =>
      rw [hstep] at h
      by_cases hnm : n = m
      · subst hnm
        have h1 := validateNode_present hstep hd hlk hec
        exact ((validateAll_ext h).tag (tagOf n)).2 _ h1
      · have hn2 : n ∈ rest := by
          rcases List.mem_cons.mp hn with h1 | h1
          · exact absurd h1 hnm
          · exact h1
        have := validateAll_present hlk hec h hn2 hd
        rwa [(validateNode_ext hstep).newEdge] at this

theorem addDepEdge_src {nm : List FileNodeD} {gs : GraphsState}
    {n : FileNodeD} {d2 : String} {gs2 : GraphsState} {t : LayerTag}
    {e : Nat × Nat} (h : addDepEdge nm gs n d2 = .ok gs2)
    (he : e ∈ (tagGraph gs2 t).edges) :
    e ∈ (tagGraph gs t).edges ∨
      ∃ dn, lookupName nm d2 = some dn ∧ edgeCase n dn = true ∧
        t = tagOf n ∧ e = newEdgeOf gs n d2 := by
  cases hlk : lookupName nm d2 with
  | none => rw [addDepEdge_none gs n hlk] at h; exact absurd h (by simp)
  | some dn =>
    by_cases hi : invalidCase n dn
    · rw [addDepEdge_invalid gs hlk hi] at h; exact absurd h (by simp)
    · rw [Bool.not_eq_true] at hi
      by_cases hec : edgeCase n dn
      · rw [addDepEdge_edge gs hlk hi hec] at h
        simp only [Except.ok.injEq] at h
        rw [← h] at he
        rcases updEdge_edge_src he with h1 | h1
        · exact Or.inl h1
        · exact Or.inr ⟨dn, rfl, hec, h1.1, h1.2⟩
      · rw [Bool.not_eq_true] at hec
        rw [addDepEdge_pass gs hlk hi hec] at h
        simp only [Except.ok.injEq] at h
        rw [← h] at he
        exact Or.inl he

theorem addDepEdges_src {nm : List FileNodeD} {n : FileNodeD} {t : LayerTag}
    {e : Nat × Nat} :
    ∀ {l : List String} {gs gs2 : GraphsState},
      addDepEdges nm n gs l = .ok gs2 → e ∈ (tagGraph gs2 t).edges →
      e ∈ (tagGraph gs t).edges ∨
        ∃ d dn, d ∈ l ∧ lookupName nm d = some dn ∧ edgeCase n dn = true ∧
          t = tagOf n ∧ e = newEdgeOf gs n d
  | [], gs, gs2, h, he => by
    rw [addDepEdges] at h
    simp only [Except.ok.injEq] at h
    rw [← h] at he
    exact Or.inl he
  | d2 :: rest, gs, gs2, h, he => by
    rw [addDepEdges] at h
    cases hstep : addDepEdge nm gs n d2 with
    | error er => rw [hstep] at h; exact absurd h (by simp)
    | ok gsm =>
      rw [hstep] at h
      rcases addDepEdges_src h he with h1 | ⟨d, dn, hd, hlk, hec, ht, hne⟩
      · rcases addDepEdge_src hstep h1 with h2 | ⟨dn, hlk, hec, ht, hne⟩
        · exact Or.inl h2
        · exact Or.inr ⟨d2, dn, by simp, hlk, hec, ht, hne⟩
      · refine Or.inr ⟨d, dn, by simp [hd], hlk, hec, ht, ?_⟩
        rw [hne, (addDepEdge_ok_ext hstep).newEdge]

theorem validateNode_src {nm : List FileNodeD} {gs : GraphsState}
    {n : FileNodeD} {gs2 : GraphsState} {t : LayerTag} {e : Nat × Nat}
    (h : validateNode nm gs n = .ok gs2) (he : e ∈ (tagGraph gs2 t).edges) :
    e ∈ (tagGraph gs t).edges ∨
      ∃ d dn, d ∈ n.deps ∧ lookupName nm d = some dn ∧ edgeCase n dn = true ∧
        t = tagOf n ∧ e = newEdgeOf gs n d := by
  rw [validateNode] at h
  cases hens : checkEnsures nm n n.ensure_exists with
  | error er => rw [hens] at h; exact absurd h (by simp)
  | ok u =>
    rw [hens] at h
    exact addDepEdges_src h he

theorem validateAll_src {nm : List FileNodeD} {t : LayerTag} {e : Nat × Nat} :
    ∀ {l : List FileNodeD} {gs gs2 : GraphsState},
      validateAll nm gs l = .ok gs2 → e ∈ (tagGraph gs2 t).edges →
      e ∈ (tagGraph gs t).edges ∨
        ∃ m d dm, m ∈ l ∧ d ∈ m.deps ∧ lookupName nm d = some dm ∧
          edgeCase m dm = true ∧ t = tagOf m ∧ e = newEdgeOf gs m d
  | [], gs, gs2, h, he => by
    rw [validateAll] at h
    simp only [Except.ok.injEq] at h
    rw [← h] at he
    exact Or.inl he
  | m2 :: rest, gs, gs2, h, he => by
    rw [validateAll] at h
    cases hstep : validateNode nm gs m2 with
    | error er => rw [hstep] at h; exact absurd h (by simp)
    | ok gsm =>
      rw [hstep] at h
      rcases validateAll_src h he with h1 | ⟨m, d, dm, hm, hd, hlk, hec, ht, hne⟩
      · rcases validateNode_src hstep h1 with h2 | ⟨d, dn, hd, hlk, hec, ht, hne⟩
        · exact Or.inl h2
        · exact Or.inr ⟨m2, d, dn, by simp, hd, hlk, hec, ht, hne⟩
      · refine Or.inr ⟨m, d, dm, by simp [hm], hd, hlk, hec, ht, ?_⟩
        rw [hne, (validateNode_ext hstep).newEdge]

theorem checkEnsures_ok {nm : List FileNodeD} {n : FileNodeD} :
    ∀ {l : List String}, (∀ x ∈ l, (lookupName nm x).isSome = true) →
      checkEnsures nm n l = .ok ()
  | [], _ => rfl
  | x :: rest, h => by
    rw [checkEnsures, if_pos (h x (by simp))]
    exact checkEnsures_ok (fun y hy => h y (by simp [hy]))

theorem addDepEdges_never_ok {nm : List FileNodeD} {n : FileNodeD}
    {d : String} {dn : FileNodeD} (hlk : lookupName nm d = some dn)
    (hi : invalidCase n dn = true) :
    ∀ {l : List String} {gs gs2 : GraphsState}, d ∈ l →
      addDepEdges nm n gs l ≠ .ok gs2
  | [], _, _, hd => by simp at hd
  | d2 :: rest, gs, gs2, hd => by
    intro h
    rw [addDepEdges] at h
    by_cases hdd : d = d2
    · subst hdd
      rw [addDepEdge_invalid gs hlk hi] at h
      simp at h
    · have hd2 : d ∈ rest := by
        rcases List.mem_cons.mp hd with h1 | h1
        · exact absurd h1 hdd
        · exact h1
      cases hstep : addDepEdge nm gs n d2 with
      | error er => rw [hstep] at h; simp at h
      | ok gsm =>
        rw [hstep] at h
        exact addDepEdges_never_ok hlk hi hd2 h

theorem validateNode_never_ok {nm : List FileNodeD} {gs : GraphsState}
    {n : FileNodeD} {gs2 : GraphsState} {d : String} {dn : FileNodeD}
    (hd : d ∈ n.deps) (hlk : lookupName nm d = some dn)
    (hi : invalidCase n dn = true) : validateNode nm gs n ≠ .ok gs2 := by
  intro h
  rw [validateNode] at h
  cases hens : checkEnsures nm n n.ensure_exists with
  | error er => rw [hens] at h; simp at h
  | ok u =>
    rw [hens] at h
    exact addDepEdges_never_ok hlk hi hd h

theorem validateAll_never_ok {nm : List FileNodeD} {n : FileNodeD}
    {d : String} {dn : FileNodeD} (hd : d ∈ n.deps)
    (hlk : lookupName nm d = some dn) (hi : invalidCase n dn = true) :
    ∀ {l : List FileNodeD} {gs gs2 : GraphsState}, n ∈ l →
      validateAll nm gs l ≠ .ok gs2
  | [], _, _, hn => by simp at hn
  | m :: rest, gs, gs2, hn => by
    intro h
    rw [validateAll] at h
    cases hstep : validateNode nm gs m with
    | error er => rw [hstep] at h; simp at h
    | ok gsm =>
      rw [hstep] at h
      by_cases hnm : n = m
      · subst hnm
        exact validateNode_never_ok hd hlk hi hstep
      · have hn2 : n ∈ rest := by
          rcases List.mem_cons.mp hn with h1 | h1
          · exact absurd h1 hnm
          · exact h1
        exact validateAll_never_ok hd hlk hi hn2 h

theorem addDepEdges_err_kind {nm : List FileNodeD} {n : FileNodeD}
    {er : TCError} :
    ∀ {l : List String} {gs : GraphsState},
      addDepEdges nm n gs l = .error er →
      (∀ d ∈ l, (lookupName nm d).isSome = true) →
      ∃ d dn, d ∈ l ∧ lookupName nm d = some dn ∧ invalidCase n dn = true ∧
        er = .InvalidDependency n.name d
  | [], gs, h, _ => by rw [addDepEdges] at h; simp at h
  | d2 :: rest, gs, h, hres => by
    rw [addDepEdges] at h
    cases hstep : addDepEdge nm gs n d2 with
    | error e2 =>
      rw [hstep] at h
      simp only [Except.error.injEq] at h
      subst h
      cases hlk : lookupName nm d2 with
      | none =>
        have := hres d2 (by simp)
        rw [hlk] at this
        simp at this
      | some dn =>
        by_cases hi : invalidCase n dn
        · rw [addDepEdge_invalid gs hlk hi] at hstep
          simp only [Except.error.injEq] at hstep
          exact ⟨d2, dn, by simp, hlk, hi, hstep.symm⟩
        · rw [Bool.not_eq_true] at hi
          by_cases hec : edgeCase n dn
          · rw [addDepEdge_edge gs hlk hi hec] at hstep
            simp at hstep
          · rw [Bool.not_eq_true] at hec
            rw [addDepEdge_pass gs hlk hi hec] at hstep
            simp at hstep
    | ok gsm =>
      rw [hstep] at h
      obtain ⟨d, dn, hd, hlk, hi, hek⟩ :=
        addDepEdges_err_kind h (fun y hy => hres y (by simp [hy]))
      exact ⟨d, dn, by simp [hd], hlk, hi, hek⟩

theorem validateNode_err_kind {nm : List FileNodeD} {gs : GraphsState}
    {n : FileNodeD} {er : TCError} (h : validateNode nm gs n = .error er)
    (hens : ∀ x ∈ n.ensure_exists, (lookupName nm x).isSome = true)
    (hdeps : ∀ d ∈ n.deps, (lookupName nm d).isSome = true) :
    ∃ d dn, d ∈ n.deps ∧ lookupName nm d = some dn ∧
      invalidCase n dn = true ∧ er = .InvalidDependency n.name d := by
  rw [validateNode, checkEnsures_ok hens] at h
  exact addDepEdges_err_kind h hdeps

/-- With every `ensure_exists`/`deps` name present in the map, the only
error `validate_dependencies` can raise is `InvalidDependency` on a pair
whose layers are ordered the wrong way. -/
theorem validateAll_err_kind {nm : List FileNodeD} {er : TCError} :
    ∀ {l : List FileNodeD} {gs : GraphsState},
      validateAll nm gs l = .error er →
      (∀ m ∈ l, (∀ x ∈ m.ensure_exists, (lookupName nm x).isSome = true) ∧
        (∀ d ∈ m.deps, (lookupName nm d).isSome = true)) →
      ∃ m d dm, m ∈ l ∧ d ∈ m.deps ∧ lookupName nm d = some dm ∧
        invalidCase m dm = true ∧ er = .InvalidDependency m.name d
  | [], gs, h, _ => by rw [validateAll] at h; simp at h
  | m2 :: rest, gs, h, hres => by
    rw [validateAll] at h
    cases hstep : validateNode nm gs m2 with
    | error e2 =>
      rw [hstep] at h
      simp only [Except.error.injEq] at h
      subst h
      obtain ⟨d, dn, hd, hlk, hi, hek⟩ := validateNode_err_kind hstep
        (hres m2 (by simp)).1 (hres m2 (by simp)).2
      exact ⟨m2, d, dn, by simp, hd, hlk, hi, hek⟩
    | ok gsm =>
      rw [hstep] at h
      obtain ⟨m, d, dm, hm, hd, hlk, hi, hek⟩ :=
        validateAll_err_kind h (fun y hy => hres y (by simp [hy]))
      exact ⟨m, d, dm, by simp [hm], hd, hlk, hi, hek⟩

/-- The successfully parsed nodes among the entries, in order. -/
def oksOf (entries : List ParseEntry) : List FileNodeD :=
  entries.filterMap (fun e => e.toOption)

@[simp]
theorem oksOf_nil : oksOf [] = [] := rfl

@[simp]
theorem oksOf_cons_ok (fn : FileNodeD) (rest : List ParseEntry) :
    oksOf (.ok fn :: rest) = fn :: oksOf rest := rfl

@[simp]
theorem oksOf_cons_err (e : FileNodeErrorD) (rest : List ParseEntry) :
    oksOf (.error e :: rest) = oksOf rest := rfl

@[simp]
theorem oksOf_append (l1 l2 : List ParseEntry) :
    oksOf (l1 ++ l2) = oksOf l1 ++ oksOf l2 := by
  simp [oksOf, List.filterMap_append]

/-- On success, the registered map is exactly the parsed nodes in order. -/
theorem reg_ok_shape :
    ∀ {entries : List ParseEntry} {acc : List FileNodeD},
      (registerAux entries acc).2 = none →
      (registerAux entries acc).1 = acc ++ oksOf entries
  | [], acc, _ => by simp [registerAux]
  | .error e :: rest, acc, h => by
    cases e with
    | NoNameDefined p =>
      rw [registerAux] at h ⊢
      simp only [handleFileNodeError] at h ⊢
      rw [reg_ok_shape h]
      simp
    | TooManyNames p s =>
      rw [registerAux] at h
      simp [handleFileNodeError] at h
  | .ok fn :: rest, acc, h => by
    rw [registerAux] at h ⊢
    cases hlk : lookupName acc fn.name with
    | some other => rw [hlk] at h; simp at h
    | none =>
      rw [hlk] at h
      have h2 : (registerAux rest (acc ++ [fn])).2 = none := h
      show (registerAux rest (acc ++ [fn])).1 =
        acc ++ oksOf (Except.ok fn :: rest)
      rw [reg_ok_shape h2]
      simp

/-- On success, the registered nodes carry pairwise-distinct names. -/
theorem reg_ok_nodup :
    ∀ {entries : List ParseEntry} {acc : List FileNodeD},
      (registerAux entries acc).2 = none →
      acc.Pairwise (fun a b => a.name ≠ b.name) →
      (acc ++ oksOf entries).Pairwise (fun a b => a.name ≠ b.name)
  | [], acc, _, hp => by simpa using hp
  | .error e :: rest, acc, h, hp => by
    cases e with
    | NoNameDefined p =>
      rw [registerAux] at h
      simp only [handleFileNodeError] at h
      simpa using reg_ok_nodup h hp
    | TooManyNames p s =>
      rw [registerAux] at h
      simp [handleFileNodeError] at h
  | .ok fn :: rest, acc, h, hp => by
    rw [registerAux] at h
    cases hlk : lookupName acc fn.name with
    | some other => rw [hlk] at h; simp at h
    | none =>
      rw [hlk] at h
      have h : (registerAux rest (acc ++ [fn])).2 = none := h
      have hne : ∀ a ∈ acc, a.name ≠ fn.name := by
        intro a ha
        have := List.find?_eq_none.mp hlk a ha
        simpa using this
      have hp2 : (acc ++ [fn]).Pairwise (fun a b => a.name ≠ b.name) := by
        rw [List.pairwise_append]
        refine ⟨hp, by simp, ?_⟩
        intro a ha b hb
        simp only [List.mem_singleton] at hb
        rw [hb]
        exact hne a ha
      have := reg_ok_nodup h hp2
      simpa [List.append_assoc] using this

/-- Error characterization of the registration loop: a fatal parse error
becomes `InvalidFileHeader`, and otherwise the error is a `NameClash`
between a registered node and a strictly later node of the same name. -/
theorem reg_err_kind :
    ∀ {entries : List ParseEntry} {acc : List FileNodeD} {er : TCError},
      (registerAux entries acc).2 = some er →
      (∃ p s, (.error (.TooManyNames p s)) ∈ entries ∧
        er = .InvalidFileHeader p
          ("Too many names declared: " ++ String.intercalate ", " s)) ∨
      (∃ a b pre mid suf, acc ++ oksOf entries = pre ++ a :: mid ++ b :: suf ∧
        a.name = b.name ∧ er = .NameClash b.name b.path a.path)
  | [], acc, er, h => by simp [registerAux] at h
  | .error e :: rest, acc, er, h => by
    cases e with
    | NoNameDefined p =>
      rw [registerAux] at h
      simp only [handleFileNodeError] at h
      rcases reg_err_kind h with ⟨p, s, hmem, hk⟩ | ⟨a, b, pre, mid, suf, hsp, hn, hk⟩
      · exact Or.inl ⟨p, s, by simp [hmem], hk⟩
      · exact Or.inr ⟨a, b, pre, mid, suf, by simpa using hsp, hn, hk⟩
    | TooManyNames p s =>
      rw [registerAux] at h
      simp only [handleFileNodeError] at h
      simp only [Option.some.injEq] at h
      exact Or.inl ⟨p, s, by simp, h.symm⟩
  | .ok fn :: rest, acc, er, h => by
    rw [registerAux] at h
    cases hlk : lookupName acc fn.name with
    | some other =>
      rw [hlk] at h
      have h2 : some (TCError.NameClash fn.name fn.path other.path) =
        some er := h
      simp only [Option.some.injEq] at h2
      have hmem : other ∈ acc := List.mem_of_find?_eq_some hlk
      have hname : other.name = fn.name := by
        have := List.find?_some hlk
        simpa using this
      obtain ⟨pre, mid, hsp⟩ := List.append_of_mem hmem
      refine Or.inr ⟨other, fn, pre, mid, oksOf rest, ?_, hname, h2.symm⟩
      rw [hsp]
      simp
    | none =>
      rw [hlk] at h
      have h : (registerAux rest (acc ++ [fn])).2 = some er := h
      rcases reg_err_kind h with ⟨p, s, hmem, hk⟩ | ⟨a, b, pre, mid, suf, hsp, hn, hk⟩
      · exact Or.inl ⟨p, s, by simp [hmem], hk⟩
      · refine Or.inr ⟨a, b, pre, mid, suf, ?_, hn, hk⟩
        rw [← hsp]
        simp [List.append_assoc]

/-- A node with a self-loop is never removable, so source elimination gets
stuck: the cycle check reports a cycle. -/
theorem kahn_stuck {α : Type} {g : DG α} {v : Nat} (hvv : (v, v) ∈ g.edges) :
    ∀ (fuel : Nat) (rem : Finset Nat), v ∈ rem → kahnAux g fuel rem = false
  | 0, rem, hv => by
    simp only [kahnAux, decide_eq_false_iff_not]
    intro hc
    rw [hc] at hv
    simp at hv
  | fuel+1, rem, hv => by
    rw [kahnAux]
    have hne : rem ≠ ∅ := by
      intro hc
      rw [hc] at hv
      simp at hv
    rw [if_neg hne]
    have hvrm : v ∉ kahnRemovable g rem := by
      rw [kahnRemovable, Finset.mem_filter]
      intro hc
      have : v ∈ rem.filter (fun u => (u, v) ∈ g.edges) :=
        Finset.mem_filter.mpr ⟨hv, hvv⟩
      rw [hc.2] at this
      simp at this
    by_cases hrm : kahnRemovable g rem = ∅
    · rw [if_pos hrm]
    · rw [if_neg hrm]
      exact kahn_stuck hvv fuel _ (Finset.mem_sdiff.mpr ⟨hv, hvrm⟩)

theorem selfLoop_isCyclic {α : Type} {g : DG α} {v : Nat}
    (hvv : (v, v) ∈ g.edges) (hv : v < g.nodes.length) :
    isCyclicDG g = true := by
  rw [isCyclicDG, kahn_stuck hvv _ _ (Finset.mem_range.mpr hv)]
  rfl

theorem selfLoop_mem_cycles {α : Type} {g : DG α} {v : Nat}
    (hvv : (v, v) ∈ g.edges) (hv : v < g.nodes.length) :
    [v] ∈ elementaryCycles g := by
  rw [elementaryCycles, List.mem_filter]
  constructor
  · rw [List.mem_flatMap]
    refine ⟨[v], ?_, ?_⟩
    · rw [List.mem_sublists]
      exact List.singleton_sublist.mpr (List.mem_range.mpr hv)
    · rw [List.mem_permutations]
  · simp [isCycleList, hvv]

theorem mem_oksOf {entries : List ParseEntry} {fn : FileNodeD}
    (h : Except.ok fn ∈ entries) : fn ∈ oksOf entries := by
  rw [oksOf, List.mem_filterMap]
  exact ⟨.ok fn, h, rfl⟩

/-- With pairwise-distinct names, the map lookup finds exactly the member
of that name. -/
theorem lookup_eq_of_nodup {dn : FileNodeD} {d : String} (hd : dn.name = d) :
    ∀ {nm : List FileNodeD}, nm.Pairwise (fun a b => a.name ≠ b.name) →
      dn ∈ nm → lookupName nm d = some dn
  | [], _, hmem => by simp at hmem
  | m :: rest, hp, hmem => by
    rw [lookupName, List.find?]
    by_cases hm : m.name = d
    · rw [show (m.name == d) = true from by simp [hm]]
      rcases List.mem_cons.mp hmem with rfl | hmem2
      · rfl
      · exfalso
        have := (List.pairwise_cons.mp hp).1 dn hmem2
        rw [hd, hm] at this
        exact this rfl
    · rw [show (m.name == d) = false from by simp [hm]]
      rcases List.mem_cons.mp hmem with rfl | hmem2
      · exact absurd hd hm
      · exact lookup_eq_of_nodup hd (List.pairwise_cons.mp hp).2 hmem2

/-- With pairwise-distinct names, the index map points back at the node. -/
theorem get_findIdx_of_nodup {n : FileNodeD} :
    ∀ {l : List FileNodeD}, l.Pairwise (fun a b => a.name ≠ b.name) →
      n ∈ l → l.get? (l.findIdx (fun fn => fn.name == n.name)) = some n
  | [], _, hmem => by simp at hmem
  | m :: rest, hp, hmem => by
    by_cases hm : m.name = n.name
    · rw [List.findIdx_cons]
      rw [show (m.name == n.name) = true from by simp [hm]]
      simp only [cond_true]
      rcases List.mem_cons.mp hmem with rfl | hmem2
      · rfl
      · exfalso
        have := (List.pairwise_cons.mp hp).1 n hmem2
        exact this hm
    · rw [List.findIdx_cons]
      rw [show (m.name == n.name) = false from by simp [hm]]
      simp only [cond_false]
      rcases List.mem_cons.mp hmem with rfl | hmem2
      · exact absurd rfl hm
      · rw [List.get?_eq_getElem?, List.getElem?_cons_succ,
          ← List.get?_eq_getElem?]
        exact get_findIdx_of_nodup (List.pairwise_cons.mp hp).2 hmem2

theorem pairwise_extract {R : FileNodeD → FileNodeD → Prop}
    {pre mid suf : List FileNodeD} {a b : FileNodeD}
    (h : (pre ++ a :: mid ++ b :: suf).Pairwise R) : R a b := by
  have h1 := (List.pairwise_append.mp h).2.2
  exact h1 a (by simp) b (by simp)

/-- With well-formed flags, the code's rejected branch is exactly "the
dependent's layer is ordered strictly before the dependency's layer". -/
theorem invalidCase_iff_layerIdx {n dn : FileNodeD} (hfn : flagsOk n)
    (hfdn : flagsOk dn) :
    invalidCase n dn = true ↔ layerIdxD n < layerIdxD dn := by
  rw [flagsOk] at hfn hfdn
  cases hnp : n.prepend <;> cases hna : n.append <;>
    cases hdp : dn.prepend <;> cases hda : dn.append <;>
      simp_all [invalidCase, layerIdxD]

/-- With well-formed flags, the code's edge branch is exactly "same layer". -/
theorem edgeCase_iff_layerIdx {n dn : FileNodeD} (hfn : flagsOk n)
    (hfdn : flagsOk dn) :
    edgeCase n dn = true ↔ layerIdxD n = layerIdxD dn := by
  rw [flagsOk] at hfn hfdn
  cases hnp : n.prepend <;> cases hna : n.append <;>
    cases hdp : dn.prepend <;> cases hda : dn.append <;>
      simp_all [edgeCase, layerIdxD]

/-- Inversion of a successful `build_graph`. -/
theorem buildGraph_ok_inv {entries : List ParseEntry} {st : TCState}
    (h : buildGraph entries = (st, .ok ())) :
    (registerAux entries []).2 = none ∧
      ∃ gs1, validateDependencies (oksOf entries)
          (addNodesToGraphs (oksOf entries) emptyGraphs) = .ok gs1 ∧
        checkCyclicDependencies gs1 = .ok () ∧
        st = ⟨oksOf entries, gs1, true⟩ := by
  rw [buildGraph] at h
  split at h
  · simp at h
  · rename_i nm heq
    have hnm : nm = oksOf entries := by
      have h1 := @reg_ok_shape entries []
        (by rw [heq])
      rw [heq] at h1
      simpa using h1
    subst hnm
    refine ⟨by rw [heq], ?_⟩
    split at h
    · simp at h
    · rename_i gs1 hval
      split at h
      · simp at h
      · rename_i u hcyc
        simp only [Prod.mk.injEq] at h
        have hcyc2 : checkCyclicDependencies gs1 = .ok () := by
          rw [hcyc]
        exact ⟨gs1, hval, hcyc2, h.1.symm⟩

/-! ### Embedding of `file_node.rs` (header parsing) -/

/-- The errors raised inside `FileNode::from_file` (`file_node.rs` also
raises `InvalidLayer` beyond the two variants of `exceptions.rs`). -/
inductive ParseError where
  | TooManyNames (path : String) (names : List String)
  | NoNameDefined (path : String)
  | InvalidLayer (path : String) (layer : String)
deriving DecidableEq, Repr

/-- The `FileNode` produced by the current parser (`layer` is a string tag). -/
structure ParsedNode where
  name : String
  path : String
  deps : List String
  layer : String
  ensure_exists : List String
deriving DecidableEq, Repr

/-- `get_file_headers`: the maximal leading run of comment/blank lines, with
blank lines dropped. -/
def getFileHeaders (commentStr : String) (lines : List String) : List String :=
  (lines.takeWhile (fun x => x.startsWith commentStr || x.isEmpty)).filter
    (fun x => !x.isEmpty)

/-- `FileNode::split_dependencies`: split on whitespace/comma, trim, drop
empties. -/
def splitDependencies (line : String) : List String :=
  ((line.split (fun c => c.isWhitespace || c == ',')).map
    (fun x => x.trim)).filter (fun x => !x.isEmpty)

/-- `HashSet::insert` over the accumulated dependency names. -/
def insertUniq (l : List String) (x : String) : List String :=
  if x ∈ l then l else l ++ [x]

def insertAllUniq : List String → List String → List String
  | l, [] => l
  | l, x :: rest => insertAllUniq (insertUniq l x) rest

/-- The mutable parse state of `from_file`'s header loop. -/
structure PState where
  pname : String
  pdeps : List String
  player : String
  pensure : List String
deriving DecidableEq, Repr

/-- One iteration of `from_file`'s `for unprocessed_line in &file_data`
loop: trim and lower-case, then dispatch on the directive key. -/
def parseLine (commentStr : String) (path : String) (st : PState)
    (unprocessed : String) : Except ParseError PState :=
  let line := unprocessed.trim.toLower
  let nameStr := commentStr ++ " name:"
  let depStr := commentStr ++ " requires:"
  let dropStr := commentStr ++ " dropped_by:"
  let layerStr := commentStr ++ " layer:"
  let prependStr := commentStr ++ " is_initial"
  let appendStr := commentStr ++ " is_final"
  let ensureStr := commentStr ++ " exists:"
  if line.startsWith nameStr then
    if st.pname.isEmpty then
      .ok { st with pname := (line.drop nameStr.length).trim }
    else
      .error (.TooManyNames path [st.pname, (line.drop nameStr.length).trim])
  else if line.startsWith depStr then
    .ok { st with pdeps :=
      insertAllUniq st.pdeps (splitDependencies (line.drop depStr.length)) }
  else if line.startsWith dropStr then
    .ok { st with pdeps :=
      insertAllUniq st.pdeps (splitDependencies (line.drop dropStr.length)) }
  else if line.startsWith layerStr then
    let declared := (line.drop layerStr.length).trim
    if !declared.isEmpty then .ok { st with player := declared } else .ok st
  else if line.startsWith prependStr then .ok { st with player := "prepend" }
  else if line.startsWith appendStr then .ok { st with player := "append" }
  else if line.startsWith ensureStr then
    .ok { st with pensure :=
      insertAllUniq st.pensure (splitDependencies (line.drop ensureStr.length)) }
  else .ok st

def parseLines (commentStr : String) (path : String) :
    PState → List String → Except ParseError PState
  | st, [] => .ok st
  | st, l :: rest =>
    match parseLine commentStr path st l with
    | .error e => .error e
    | .ok st2 => parseLines commentStr path st2 rest

/-- `FileNode::from_file` on the file's lines: parse the header block, then
require a name, then require the layer to be configured. -/
def fromFileLines (commentStr : String) (path : String) (lines : List String)
    (layers : List String) (fallbackLayer : String) :
    Except ParseError ParsedNode :=
  match parseLines commentStr path ⟨"", [], fallbackLayer, []⟩
      (getFileHeaders commentStr lines) with
  | .error e => .error e
  | .ok st =>
    if st.pname.isEmpty then .error (.NoNameDefined path)
    else if !(layers.contains st.player) then
      .error (.InvalidLayer path st.player)
    else .ok ⟨st.pname, path, st.pdeps, st.player, st.pensure⟩

/-! ### The claims -/

/-- A two-node path graph used as a concrete witness input. -/
def gPath : DG String := ⟨["a", "b"], [(0, 1)]⟩

/-- Two isolated nodes named "a" and "b". -/
def gAB : DG String := ⟨["a", "b"], []⟩

/-- The path graph of `gPath` with the nodes inserted in the other order. -/
def gBA : DG String := ⟨["b", "a"], [(1, 0)]⟩

/-- C2: for every acyclic directed graph (acyclic in the sense of the
program's own cycle check) and every edge u→v in it, the sequence emitted
by `StableTopoSort` contains u at a strictly earlier position than v. -/
theorem claim_C2_topological_validity {α : Type} (key : α → String)
    (g : DG α) (hwf : WFdg g) (hac : isCyclicDG g = false) {u v : Nat}
    (huv : (u, v) ∈ g.edges) :
    ∃ (i j : Nat) (hi : i < (stableTopoList key g).length)
      (hj : j < (stableTopoList key g).length),
      i < j ∧ (stableTopoList key g).get ⟨i, hi⟩ = u ∧
        (stableTopoList key g).get ⟨j, hj⟩ = v :=
  stableTopo_edge_before key g hwf hac huv

theorem claim_C2_witness :
    WFdg gPath ∧ isCyclicDG gPath = false ∧ (0, 1) ∈ gPath.edges ∧
      (∃ (i j : Nat) (hi : i < (stableTopoList id gPath).length)
        (hj : j < (stableTopoList id gPath).length),
        i < j ∧ (stableTopoList id gPath).get ⟨i, hi⟩ = 0 ∧
          (stableTopoList id gPath).get ⟨j, hj⟩ = 1) :=
  ⟨by decide, by decide, by decide,
    claim_C2_topological_validity id gPath (by decide) (by decide) (by decide)⟩

/-- C3: for every acyclic directed graph, iterating `StableTopoSort` to
exhaustion emits every node exactly once (the emitted index sequence is a
permutation of the node-index range). -/
theorem claim_C3_completeness {α : Type} (key : α → String) (g : DG α)
    (hwf : WFdg g) (hac : isCyclicDG g = false) :
    List.Perm (stableTopoList key g) (List.range g.nodes.length) :=
  stableTopo_perm_range key g hwf hac

theorem claim_C3_witness :
    WFdg gPath ∧ isCyclicDG gPath = false ∧
      List.Perm (stableTopoList id gPath) (List.range gPath.nodes.length) :=
  ⟨by decide, by decide,
    claim_C3_completeness id gPath (by decide) (by decide)⟩

/-- C4 counterexample: on two isolated nodes named "a" and "b" the emitted
name sequence is ["b", "a"] — the node popped from the tail of the
ascending sort is the *largest* name, so simultaneously available nodes are
not visited in ascending-name order. -/
theorem claim_C4_counterexample :
    (stableTopoList id gAB).map (keyAt id gAB) = ["b", "a"] ∧
      (stableTopoList id gAB).map (keyAt id gAB) ≠ ["a", "b"] ∧
      ¬ ((stableTopoList id gAB).map (keyAt id gAB)).Sorted
          (fun x y : String => x.data ≤ y.data) := by
  refine ⟨by decide, by decide, ?_⟩
  intro hs
  have h1 : (stableTopoList id gAB).map (keyAt id gAB) = ["b", "a"] := by
    decide
  rw [h1] at hs
  have := List.rel_of_sorted_cons hs "a" (by simp)
  revert this
  decide

/-- C4 (amended): on each step the frontier is sorted ascending by node
name and the node taken from the tail of the sorted order is a
maximal-name unvisited frontier entry, so across successive calls the
nodes available in the frontier are visited in descending-name order. -/
theorem claim_C4_amended_max_name {α : Type} {key : α → String} {g : DG α}
    {s : TopoState} {x : Nat} {s2 : TopoState}
    (h : nextTopo key g s = some (x, s2)) :
    x ∈ s.tovisit ∧ x ∉ s.ordered ∧
      ∀ v ∈ s.tovisit, v ∉ s.ordered → keyOf key g v ≤ keyOf key g x :=
  nextTopo_emits_max h

theorem claim_C4_witness :
    nextTopo id gAB (initTopo gAB) = some (1, ⟨insert 1 ∅, [0]⟩) ∧
      (1 ∈ (initTopo gAB).tovisit ∧ 1 ∉ (initTopo gAB).ordered ∧
        ∀ v ∈ (initTopo gAB).tovisit, v ∉ (initTopo gAB).ordered →
          keyOf id gAB v ≤ keyOf id gAB 1) := by
  have h : nextTopo id gAB (initTopo gAB) = some (1, ⟨insert 1 ∅, [0]⟩) := by
    decide
  exact ⟨h, claim_C4_amended_max_name h⟩

/-- C1: for graphs whose node weights have pairwise-distinct names, the
emitted sequence is a function of the node set (by name) and the edge
relation only: two graphs with the same named nodes and the same
name-level edge multiset — however the nodes and edges were inserted —
yield the identical emitted name sequence. -/
theorem claim_C1_insertion_order_independence {α : Type} (key : α → String)
    (g1 g2 : DG α) (hwf1 : WFdg g1) (hwf2 : WFdg g2)
    (hnodup : (g1.nodes.map key).Nodup)
    (hperm : List.Perm (g1.nodes.map key) (g2.nodes.map key))
    (hedges : List.Perm
      (g1.edges.map (fun e => (keyAt key g1 e.1, keyAt key g1 e.2)))
      (g2.edges.map (fun e => (keyAt key g2 e.1, keyAt key g2 e.2)))) :
    (stableTopoList key g1).map (keyAt key g1) =
      (stableTopoList key g2).map (keyAt key g2) := by
  obtain ⟨φ, iso⟩ := dgIso_of_names key g1 g2 hwf1 hwf2 hnodup hperm hedges
  exact iso.stableTopoNames.symm

theorem claim_C1_witness :
    WFdg gPath ∧ WFdg gBA ∧ (gPath.nodes.map id).Nodup ∧
      List.Perm (gPath.nodes.map id) (gBA.nodes.map id) ∧
      List.Perm
        (gPath.edges.map (fun e => (keyAt id gPath e.1, keyAt id gPath e.2)))
        (gBA.edges.map (fun e => (keyAt id gBA e.1, keyAt id gBA e.2))) ∧
      (stableTopoList id gPath).map (keyAt id gPath) =
        (stableTopoList id gBA).map (keyAt id gBA) :=
  ⟨by decide, by decide, by decide, by decide, by decide,
    claim_C1_insertion_order_independence id gPath gBA (by decide) (by decide)
      (by decide) (by decide) (by decide)⟩

/-- C7: if two files at distinct paths both successfully parse to nodes of
the same name (and no file independently aborts parsing with
`TooManyNames`), `build_graph` fails with a `NameClash` naming that name
and two distinct paths that declared it, and `get_sorted_files`
subsequently yields `GraphMissing` instead of a file list. -/
theorem claim_C7_name_clash (E l1 l2 l3 : List ParseEntry)
    (fn1 fn2 : FileNodeD)
    (hE : E = l1 ++ .ok fn1 :: l2 ++ .ok fn2 :: l3)
    (hname : fn1.name = fn2.name)
    (hnotm : ∀ p s, (Except.error (.TooManyNames p s) : ParseEntry) ∉ E)
    (hpaths : (oksOf E).Pairwise (fun a b => a.path ≠ b.path))
    (inc exc : Option (List String)) :
    ∃ a b : FileNodeD, a ∈ oksOf E ∧ b ∈ oksOf E ∧ a.name = b.name ∧
      a.path ≠ b.path ∧
      (buildGraph E).2 = .error (.NameClash b.name b.path a.path) ∧
      getSortedFiles (buildGraph E).1 inc exc = .error .GraphMissing := by
  have hoks : oksOf E = oksOf l1 ++ fn1 :: oksOf l2 ++ fn2 :: oksOf l3 := by
    rw [hE]
    simp
  cases herr : (registerAux E []).2 with
  | none =>
    exfalso
    have hp := reg_ok_nodup herr (by simp)
    simp only [List.nil_append] at hp
    rw [hoks] at hp
    exact pairwise_extract hp hname
  | some er =>
    rcases reg_err_kind herr with ⟨p, s, hmem, _⟩ |
      ⟨a, b, pre, mid, suf, hsp, hn, hk⟩
    · exact absurd hmem (hnotm p s)
    · simp only [List.nil_append] at hsp
      have hamem : a ∈ oksOf E := by rw [hsp]; simp
      have hbmem : b ∈ oksOf E := by rw [hsp]; simp
      have hpne : a.path ≠ b.path := by
        rw [hsp] at hpaths
        exact pairwise_extract hpaths
      rcases hR : registerAux E [] with ⟨nm, err⟩
      have herr2 : err = some er := by rw [hR] at herr; exact herr
      subst herr2
      have hbuild : buildGraph E = (⟨nm, emptyGraphs, false⟩, .error er) := by
        rw [buildGraph, hR]
      refine ⟨a, b, hamem, hbmem, hn, hpne, ?_, ?_⟩
      · rw [hbuild, hk]
      · rw [hbuild, getSortedFiles]
        rfl

/-- Concrete clash input: two files at distinct paths declaring `name: a`. -/
def entC7 : List ParseEntry :=
  [.ok ⟨"a", "p1", [], [], false, false⟩, .ok ⟨"a", "p2", [], [], false, false⟩]

theorem claim_C7_witness :
    (∀ p s, (Except.error (.TooManyNames p s) : ParseEntry) ∉ entC7) ∧
      (oksOf entC7).Pairwise (fun a b => a.path ≠ b.path) ∧
      ∃ a b : FileNodeD, a ∈ oksOf entC7 ∧ b ∈ oksOf entC7 ∧
        a.name = b.name ∧ a.path ≠ b.path ∧
        (buildGraph entC7).2 = .error (.NameClash b.name b.path a.path) ∧
        getSortedFiles (buildGraph entC7).1 none none = .error .GraphMissing :=
  ⟨by intro p s; simp [entC7], by decide,
    claim_C7_name_clash entC7 [] [] [] _ _ rfl (by decide)
      (by intro p s; simp [entC7]) (by decide) none none⟩

/-- C5: if some node's `deps` names a node assigned to a strictly later
layer of the configured sequence [prepend, normal, append], the build never
succeeds; and whenever no unrelated error (fatal parse error, name clash,
missing name) preempts it, it fails precisely with `InvalidDependency`
naming a dependent and its later-layer dependency. -/
theorem claim_C5_invalid_dependency (entries : List ParseEntry)
    (n dn : FileNodeD) (d : String)
    (hn : Except.ok n ∈ entries) (hdn : Except.ok dn ∈ entries)
    (hdname : dn.name = d) (hd : d ∈ n.deps)
    (hfn : flagsOk n) (hfdn : flagsOk dn)
    (hlater : layerIdxD n < layerIdxD dn) :
    (buildGraph entries).2 ≠ .ok () ∧
      ((∀ p s, (Except.error (.TooManyNames p s) : ParseEntry) ∉ entries) →
        (oksOf entries).Pairwise (fun a b => a.name ≠ b.name) →
        (∀ m ∈ oksOf entries,
          (∀ x ∈ m.ensure_exists,
            (lookupName (oksOf entries) x).isSome = true) ∧
          (∀ d2 ∈ m.deps, (lookupName (oksOf entries) d2).isSome = true)) →
        (∀ m ∈ oksOf entries, flagsOk m) →
        ∃ m d2 dm, m ∈ oksOf entries ∧ d2 ∈ m.deps ∧
          lookupName (oksOf entries) d2 = some dm ∧
          layerIdxD m < layerIdxD dm ∧
          (buildGraph entries).2 = .error (.InvalidDependency m.name d2)) := by
  have hstep : ∀ gs gs1, (oksOf entries).Pairwise (fun a b => a.name ≠ b.name) →
      validateAll (oksOf entries) gs (oksOf entries) ≠ .ok gs1 := by
    intro gs gs1 hp
    have hlk : lookupName (oksOf entries) d = some dn :=
      lookup_eq_of_nodup hdname hp (mem_oksOf hdn)
    have hic : invalidCase n dn = true :=
      (invalidCase_iff_layerIdx hfn hfdn).mpr hlater
    exact validateAll_never_ok hd hlk hic (mem_oksOf hn)
  constructor
  · intro h
    have hpair : buildGraph entries = ((buildGraph entries).1, .ok ()) := by
      rw [← h]
    obtain ⟨hreg, gs1, hval, _, _⟩ := buildGraph_ok_inv hpair
    have hp := reg_ok_nodup hreg (by simp)
    simp only [List.nil_append] at hp
    rw [validateDependencies] at hval
    exact hstep _ gs1 hp hval
  · intro hnotm hnames hres hflags
    cases herr : (registerAux entries []).2 with
    | some er0 =>
      rcases reg_err_kind herr with ⟨p, s, hmem, _⟩ |
        ⟨a, b, pre, mid, suf, hsp, hnab, _⟩
      · exact absurd hmem (hnotm p s)
      · exfalso
        simp only [List.nil_append] at hsp
        rw [hsp] at hnames
        exact pairwise_extract hnames hnab
    | none =>
      rcases hR : registerAux entries [] with ⟨nm, err⟩
      have herr2 : err = none := by rw [hR] at herr; exact herr
      subst herr2
      have hnm : nm = oksOf entries := by
        have h1 := @reg_ok_shape entries []
          (by rw [hR])
        rw [hR] at h1
        simpa using h1
      subst hnm
      cases hval : validateDependencies (oksOf entries)
          (addNodesToGraphs (oksOf entries) emptyGraphs) with
      | ok gs1 =>
        exfalso
        rw [validateDependencies] at hval
        exact hstep _ gs1 hnames hval
      | error er =>
        have herk := hval
        rw [validateDependencies] at herk
        obtain ⟨m, d2, dm, hm, hd2, hlk2, hic2, hkind⟩ :=
          validateAll_err_kind herk hres
        have hdm : dm ∈ oksOf entries := List.mem_of_find?_eq_some hlk2
        refine ⟨m, d2, dm, hm, hd2, hlk2, ?_, ?_⟩
        · exact (invalidCase_iff_layerIdx (hflags m hm) (hflags dm hdm)).mp hic2
        · rw [buildGraph, hR]
          simp only
          rw [hval, hkind]

/-- A self-loop in the normal graph forces the cycle gate to fail. -/
theorem checkCyclic_err_normal {gs : GraphsState} {v : Nat}
    (hvv : (v, v) ∈ gs.normalG.edges) (hv : v < gs.normalG.nodes.length) :
    ∃ cyc, checkCyclicDependencies gs = .error (.CyclicDependency cyc) := by
  have hcy : isCyclicDG gs.normalG = true := selfLoop_isCyclic hvv hv
  have hne : cyclesAsNodes gs.normalG ≠ [] := by
    rw [cyclesAsNodes]
    intro hc
    rw [List.map_eq_nil_iff] at hc
    have hm := selfLoop_mem_cycles hvv hv
    rw [hc] at hm
    simp at hm
  simp only [checkCyclicDependencies]
  rw [if_neg ?_]
  · exact ⟨_, rfl⟩
  · rw [List.isEmpty_iff]
    intro hc
    rw [List.append_assoc, List.append_eq_nil] at hc
    rw [List.append_eq_nil] at hc
    have := hc.2.1
    rw [if_pos hcy] at this
    exact hne this

/-- Concrete invalid-dependency input: a normal-layer node requiring an
append-layer node. -/
def entC5 : List ParseEntry :=
  [.ok ⟨"a", "p1", ["z"], [], false, false⟩,
   .ok ⟨"z", "p2", [], [], false, true⟩]

theorem claim_C5_witness :
    (Except.ok (⟨"a", "p1", ["z"], [], false, false⟩ : FileNodeD) ∈ entC5) ∧
      layerIdxD (⟨"a", "p1", ["z"], [], false, false⟩ : FileNodeD) <
        layerIdxD (⟨"z", "p2", [], [], false, true⟩ : FileNodeD) ∧
      (buildGraph entC5).2 ≠ .ok () ∧
      ∃ m d2 dm, m ∈ oksOf entC5 ∧ d2 ∈ m.deps ∧
        lookupName (oksOf entC5) d2 = some dm ∧ layerIdxD m < layerIdxD dm ∧
        (buildGraph entC5).2 = .error (.InvalidDependency m.name d2) := by
  have h := claim_C5_invalid_dependency entC5
    ⟨"a", "p1", ["z"], [], false, false⟩ ⟨"z", "p2", [], [], false, true⟩ "z"
    (by decide) (by decide) (by decide) (by decide) (by decide) (by decide)
    (by decide)
  exact ⟨by decide, by decide, h.1,
    h.2 (by intro p s; simp [entC5]) (by decide) (by decide) (by decide)⟩

/-- C9: a node in the normal layer whose `deps` contains its own name makes
the build fail: it never succeeds, and (absent unrelated earlier errors) a
self-loop edge is added to the normal layer's graph at that node and the
build fails with `CyclicDependency`. -/
theorem claim_C9_self_dependency (entries : List ParseEntry) (n : FileNodeD)
    (hmem : Except.ok n ∈ entries) (hself : n.name ∈ n.deps)
    (hnp : n.prepend = false) (hna : n.append = false) :
    (buildGraph entries).2 ≠ .ok () ∧
      ((∀ p s, (Except.error (.TooManyNames p s) : ParseEntry) ∉ entries) →
        (oksOf entries).Pairwise (fun a b => a.name ≠ b.name) →
        (∀ m ∈ oksOf entries,
          (∀ x ∈ m.ensure_exists,
            (lookupName (oksOf entries) x).isSome = true) ∧
          (∀ d2 ∈ m.deps, (lookupName (oksOf entries) d2).isSome = true)) →
        (∀ m ∈ oksOf entries, ∀ d2 ∈ m.deps, ∀ dm,
          lookupName (oksOf entries) d2 = some dm →
          invalidCase m dm = false) →
        ∃ cyc, (buildGraph entries).2 = .error (.CyclicDependency cyc) ∧
          ∃ i, (i, i) ∈ (buildGraph entries).1.gs.normalG.edges ∧
            (buildGraph entries).1.gs.normalG.nodes.get? i = some n) := by
  have hec : edgeCase n n = true := by simp [edgeCase, hnp, hna]
  have htag : tagOf n = .normalT := by simp [tagOf, hnp, hna]
  have hfilter : n ∈ (oksOf entries).filter
      (fun m => !m.prepend && !m.append) := by
    rw [List.mem_filter]
    exact ⟨mem_oksOf hmem, by simp [hnp, hna]⟩
  -- the self-loop produced by validation, for any successful validation run
  have hloop : ∀ gs1, (oksOf entries).Pairwise (fun a b => a.name ≠ b.name) →
      validateAll (oksOf entries)
        (addNodesToGraphs (oksOf entries) emptyGraphs) (oksOf entries) =
          .ok gs1 →
      ∃ i, (i, i) ∈ gs1.normalG.edges ∧ i < gs1.normalG.nodes.length ∧
        gs1.normalG.nodes.get? i = some n := by
    intro gs1 hp hval
    have hlk : lookupName (oksOf entries) n.name = some n :=
      lookup_eq_of_nodup rfl hp (mem_oksOf hmem)
    have hpres := validateAll_present hlk hec hval (mem_oksOf hmem) hself
    rw [htag] at hpres
    have hnodes0 : (tagGraph (addNodesToGraphs (oksOf entries) emptyGraphs)
        LayerTag.normalT).nodes =
        (oksOf entries).filter (fun m => !m.prepend && !m.append) := by
      rw [addNodes_spec]
      simp [tagGraph, emptyGraphs]
    have hnodes1 : (tagGraph gs1 LayerTag.normalT).nodes =
        (tagGraph (addNodesToGraphs (oksOf entries) emptyGraphs)
          LayerTag.normalT).nodes :=
      ((validateAll_ext hval).tag LayerTag.normalT).1
    refine ⟨indexOfName (tagGraph (addNodesToGraphs (oksOf entries)
      emptyGraphs) LayerTag.normalT) n.name, ?_, ?_, ?_⟩
    · have : newEdgeOf (addNodesToGraphs (oksOf entries) emptyGraphs) n
          n.name =
          (indexOfName (tagGraph (addNodesToGraphs (oksOf entries)
            emptyGraphs) LayerTag.normalT) n.name,
           indexOfName (tagGraph (addNodesToGraphs (oksOf entries)
            emptyGraphs) LayerTag.normalT) n.name) := by
        rw [newEdgeOf, htag]
      rw [this] at hpres
      exact hpres
    · show indexOfName (tagGraph (addNodesToGraphs (oksOf entries)
        emptyGraphs) LayerTag.normalT) n.name <
          (tagGraph gs1 LayerTag.normalT).nodes.length
      rw [hnodes1, indexOfName, hnodes0]
      apply List.findIdx_lt_length_of_exists
      exact ⟨n, hfilter, by simp⟩
    · show (tagGraph gs1 LayerTag.normalT).nodes.get?
        (indexOfName (tagGraph (addNodesToGraphs (oksOf entries)
          emptyGraphs) LayerTag.normalT) n.name) = some n
      rw [hnodes1, indexOfName, hnodes0]
      apply get_findIdx_of_nodup
      · exact List.Pairwise.sublist (List.filter_sublist _) hp
      · exact hfilter
  constructor
  · intro h
    have hpair : buildGraph entries = ((buildGraph entries).1, .ok ()) := by
      rw [← h]
    obtain ⟨hreg, gs1, hval, hcyc, _⟩ := buildGraph_ok_inv hpair
    have hp := reg_ok_nodup hreg (by simp)
    simp only [List.nil_append] at hp
    rw [validateDependencies] at hval
    obtain ⟨i, hloopE, hlen, _⟩ := hloop gs1 hp hval
    obtain ⟨cyc, hcycErr⟩ := checkCyclic_err_normal hloopE hlen
    rw [hcyc] at hcycErr
    simp at hcycErr
  · intro hnotm hnames hres hnoinv
    cases herr : (registerAux entries []).2 with
    | some er0 =>
      rcases reg_err_kind herr with ⟨p, s, hmem2, _⟩ |
        ⟨a, b, pre, mid, suf, hsp, hnab, _⟩
      · exact absurd hmem2 (hnotm p s)
      · exfalso
        simp only [List.nil_append] at hsp
        rw [hsp] at hnames
        exact pairwise_extract hnames hnab
    | none =>
      rcases hR : registerAux entries [] with ⟨nm, err⟩
      have herr2 : err = none := by rw [hR] at herr; exact herr
      subst herr2
      have hnm : nm = oksOf entries := by
        have h1 := @reg_ok_shape entries []
          (by rw [hR])
        rw [hR] at h1
        simpa using h1
      subst hnm
      cases hval : validateDependencies (oksOf entries)
          (addNodesToGraphs (oksOf entries) emptyGraphs) with
      | error er =>
        exfalso
        have herk := hval
        rw [validateDependencies] at herk
        obtain ⟨m, d2, dm, hm, hd2, hlk2, hic2, _⟩ :=
          validateAll_err_kind herk hres
        rw [hnoinv m hm d2 hd2 dm hlk2] at hic2
        simp at hic2
      | ok gs1 =>
        have hval2 := hval
        rw [validateDependencies] at hval2
        obtain ⟨i, hloopE, hlen, hget⟩ := hloop gs1 hnames hval2
        obtain ⟨cyc, hcycErr⟩ := checkCyclic_err_normal hloopE hlen
        have hbuild : buildGraph entries =
            (⟨oksOf entries, gs1, false⟩, .error (.CyclicDependency cyc)) := by
          rw [buildGraph, hR]
          simp only
          rw [hval]
          show (match checkCyclicDependencies gs1 with
            | Except.error e =>
              ((⟨oksOf entries, gs1, false⟩ : TCState), Except.error e)
            | Except.ok _ =>
              ((⟨oksOf entries, gs1, true⟩ : TCState),
                (Except.ok () : Except TCError Unit))) =
            (⟨oksOf entries, gs1, false⟩, .error (.CyclicDependency cyc))
          rw [hcycErr]
        refine ⟨cyc, ?_, i, ?_, ?_⟩
        · rw [hbuild]
        · rw [hbuild]
          exact hloopE
        · rw [hbuild]
          exact hget

/-- Concrete self-dependency input: a normal-layer node requiring itself. -/
def entC9 : List ParseEntry := [.ok ⟨"a", "p1", ["a"], [], false, false⟩]

theorem claim_C9_witness :
    (Except.ok (⟨"a", "p1", ["a"], [], false, false⟩ : FileNodeD) ∈ entC9) ∧
      (buildGraph entC9).2 ≠ .ok () ∧
      ∃ cyc, (buildGraph entC9).2 = .error (.CyclicDependency cyc) ∧
        ∃ i, (i, i) ∈ (buildGraph entC9).1.gs.normalG.edges ∧
          (buildGraph entC9).1.gs.normalG.nodes.get? i =
            some ⟨"a", "p1", ["a"], [], false, false⟩ := by
  have h := claim_C9_self_dependency entC9
    ⟨"a", "p1", ["a"], [], false, false⟩ (by decide) (by decide) rfl rfl
  refine ⟨by decide, h.1, ?_⟩
  apply h.2
  · intro p s
    simp [entC9]
  · decide
  · decide
  · intro m hm d2 hd2 dm hdm
    have hm2 : m = ⟨"a", "p1", ["a"], [], false, false⟩ := by
      have := hm
      simp only [entC9, oksOf, List.filterMap, Except.toOption] at this
      simpa using this
    subst hm2
    have hd22 : d2 = "a" := by simpa using hd2
    subst hd22
    have hlkv : lookupName (oksOf entC9) "a" =
        some ⟨"a", "p1", ["a"], [], false, false⟩ := by decide
    rw [hlkv] at hdm
    have hdm2 : dm = ⟨"a", "p1", ["a"], [], false, false⟩ := by
      injection hdm with h2
      exact h2.symm
    subst hdm2
    decide

/-! ### Edge placement (`validate_dependencies`, spec §4.2) -/

/-- An edge of `g` whose endpoints carry the given names. -/
def namedEdge (g : DG FileNodeD) (a b : String) : Prop :=
  ∃ i j fi fj, (i, j) ∈ g.edges ∧ g.nodes.get? i = some fi ∧
    g.nodes.get? j = some fj ∧ fi.name = a ∧ fj.name = b

/-- Each layer graph holds a sublist of the registered nodes. -/
theorem tag_nodes_sublist (nm : List FileNodeD) (t : LayerTag) :
    List.Sublist (tagGraph (addNodesToGraphs nm emptyGraphs) t).nodes nm := by
  rw [addNodes_spec]
  cases t <;> simp [tagGraph, emptyGraphs]

/-- Node placement adds no edges. -/
theorem tag_edges_nil (nm : List FileNodeD) (t : LayerTag) :
    (tagGraph (addNodesToGraphs nm emptyGraphs) t).edges = [] := by
  rw [addNodes_spec]
  cases t <;> rfl

/-- Every registered node lands in its own layer's graph. -/
theorem mem_tag_nodes {nm : List FileNodeD} {m : FileNodeD} (hm : m ∈ nm) :
    m ∈ (tagGraph (addNodesToGraphs nm emptyGraphs) (tagOf m)).nodes := by
  rw [addNodes_spec, tagOf]
  cases hmp : m.prepend <;> cases hma : m.append <;>
    simp [tagGraph, emptyGraphs, List.mem_filter, hm, hmp, hma]

/-- The layer index map resolves a registered node's name to the node. -/
theorem get_indexOfName {nm : List FileNodeD}
    (hp : nm.Pairwise (fun a b => a.name ≠ b.name)) {m : FileNodeD}
    (hm : m ∈ nm) {t : LayerTag} (ht : t = tagOf m) :
    (tagGraph (addNodesToGraphs nm emptyGraphs) t).nodes.get?
      (indexOfName (tagGraph (addNodesToGraphs nm emptyGraphs) t) m.name) =
      some m := by
  subst ht
  rw [indexOfName]
  exact get_findIdx_of_nodup
    (List.Pairwise.sublist (tag_nodes_sublist nm _) hp) (mem_tag_nodes hm)

/-- Pairwise-distinct names: equal names force equal nodes. -/
theorem name_eq_unique {nm : List FileNodeD}
    (hp : nm.Pairwise (fun a b => a.name ≠ b.name)) {a b : FileNodeD}
    (ha : a ∈ nm) (hb : b ∈ nm) (hn : a.name = b.name) : a = b := by
  have hsym : Symmetric (fun a b : FileNodeD => a.name ≠ b.name) :=
    fun x y h e => h e.symm
  by_cases hab : a = b
  · exact hab
  · exact absurd hn (hp.forall hsym ha hb hab)

/-- A dependency in the edge branch lives in the dependent's layer. -/
theorem edgeCase_tagOf {n dn : FileNodeD} (hfdn : flagsOk dn)
    (hec : edgeCase n dn = true) : tagOf dn = tagOf n := by
  cases hnp : n.prepend <;> cases hna : n.append <;>
    cases hdp : dn.prepend <;> cases hda : dn.append <;>
      simp_all [edgeCase, tagOf]

/-- C6: after a successful build (with single-layer flags), every dependency
`d` of a registered node `n` that resolves to a node of the same layer
yields the edge dependency→dependent in that layer's graph (at the index-map
positions, hence between the nodes of those names), while a dependency
resolving to a different layer contributes no edge named `d → n.name` to any
of the three graphs. -/
theorem claim_C6_edge_placement (entries : List ParseEntry) (st : TCState)
    (hb : buildGraph entries = (st, .ok ()))
    (hflags : ∀ m ∈ oksOf entries, flagsOk m)
    (n dn : FileNodeD) (d : String)
    (hn : n ∈ st.name_map) (hd : d ∈ n.deps)
    (hlk : lookupName st.name_map d = some dn) :
    (layerIdxD n = layerIdxD dn →
      newEdgeOf st.gs n d ∈ (tagGraph st.gs (tagOf n)).edges ∧
      namedEdge (tagGraph st.gs (tagOf n)) d n.name) ∧
    (layerIdxD n ≠ layerIdxD dn →
      ∀ t, ¬ namedEdge (tagGraph st.gs t) d n.name) := by
  obtain ⟨hreg, gs1, hval, hcyc, hst⟩ := buildGraph_ok_inv hb
  subst hst
  have hp : (oksOf entries).Pairwise (fun a b => a.name ≠ b.name) := by
    simpa using reg_ok_nodup hreg List.Pairwise.nil
  have hval' : validateAll (oksOf entries)
      (addNodesToGraphs (oksOf entries) emptyGraphs) (oksOf entries) =
      .ok gs1 := hval
  have hext : GSExt (addNodesToGraphs (oksOf entries) emptyGraphs) gs1 :=
    validateAll_ext hval'
  have hn' : n ∈ oksOf entries := hn
  have hlk' : lookupName (oksOf entries) d = some dn := hlk
  have hdnmem : dn ∈ oksOf entries := List.mem_of_find?_eq_some hlk'
  have hdnname : dn.name = d := by simpa using List.find?_some hlk'
  have hfn : flagsOk n := hflags n hn'
  have hfdn : flagsOk dn := hflags dn hdnmem
  constructor
  · intro hsame
    have hec : edgeCase n dn = true := (edgeCase_iff_layerIdx hfn hfdn).mpr hsame
    have hpres := validateAll_present hlk' hec hval' hn' hd
    have hedge : newEdgeOf gs1 n d ∈ (tagGraph gs1 (tagOf n)).edges := by
      rw [hext.newEdge]
      exact hpres
    refine ⟨hedge, ?_⟩
    simp only [namedEdge]
    refine ⟨indexOfName (tagGraph gs1 (tagOf n)) d,
      indexOfName (tagGraph gs1 (tagOf n)) n.name, dn, n, hedge, ?_, ?_,
      hdnname, rfl⟩
    · have hnodes := (hext.tag (tagOf n)).1
      have hidx := (hext.tag (tagOf n)).idx d
      rw [hnodes, hidx, ← hdnname]
      exact get_indexOfName hp hdnmem (edgeCase_tagOf hfdn hec).symm
    · have hnodes := (hext.tag (tagOf n)).1
      have hidx := (hext.tag (tagOf n)).idx n.name
      rw [hnodes, hidx]
      exact get_indexOfName hp hn' rfl
  · intro hdiff t hne'
    simp only [namedEdge] at hne'
    obtain ⟨i, j, fi, fj, hij, hgi, hgj, hfi, hfj⟩ := hne'
    have hij' : (i, j) ∈ (tagGraph gs1 t).edges := hij
    rcases validateAll_src hval' hij' with h0 |
      ⟨m, d2, dm, hmm, hd2, hlk2, hec2, ht, hnew⟩
    · rw [tag_edges_nil] at h0
      simp at h0
    · have hdmmem : dm ∈ oksOf entries := List.mem_of_find?_eq_some hlk2
      have hdmname : dm.name = d2 := by simpa using List.find?_some hlk2
      have hfdm : flagsOk dm := hflags dm hdmmem
      have hi : i = indexOfName
          (tagGraph (addNodesToGraphs (oksOf entries) emptyGraphs) (tagOf m))
          d2 := congrArg Prod.fst hnew
      have hj : j = indexOfName
          (tagGraph (addNodesToGraphs (oksOf entries) emptyGraphs) (tagOf m))
          m.name := congrArg Prod.snd hnew
      subst ht
      have hgi' : (i, j) ∈ (tagGraph gs1 (tagOf m)).edges := hij
      have hnodes := (hext.tag (tagOf m)).1
      rw [hnodes, hj] at hgj
      have hj2 := get_indexOfName hp hmm (Eq.refl (tagOf m))
      have hfjm : fj = m := by
        have := hj2.symm.trans hgj
        exact (Option.some.inj this.symm)
      rw [hnodes, hi, ← hdmname] at hgi
      have hi2 := get_indexOfName hp hdmmem (edgeCase_tagOf hfdm hec2).symm
      have hfim : fi = dm := by
        have := hi2.symm.trans hgi
        exact (Option.some.inj this.symm)
      have hmn : m = n := by
        apply name_eq_unique hp hmm hn'
        rw [← hfjm, hfj]
      subst hmn
      have hd2d : d2 = d := by
        rw [← hdmname, ← hfim]
        exact hfi
      rw [hd2d, hlk'] at hlk2
      have hdmdn : dm = dn := (Option.some.inj hlk2).symm
      subst hdmdn
      exact hdiff ((edgeCase_iff_layerIdx hfn hfdm).mp hec2)

/-- Two normal-layer nodes, `b` requiring `a`. -/
def nA : FileNodeD := ⟨"a", "pa", [], [], false, false⟩

def nB : FileNodeD := ⟨"b", "pb", ["a"], [], false, false⟩

def entC6 : List ParseEntry := [.ok nA, .ok nB]

def gsC6 : GraphsState := ⟨⟨[], []⟩, ⟨[], []⟩, ⟨[nA, nB], [(0, 1)]⟩⟩

theorem claim_C6_witness :
    buildGraph entC6 = (⟨[nA, nB], gsC6, true⟩, .ok ()) ∧
      newEdgeOf gsC6 nB "a" ∈ (tagGraph gsC6 (tagOf nB)).edges ∧
      namedEdge (tagGraph gsC6 (tagOf nB)) "a" nB.name := by
  have hb : buildGraph entC6 = (⟨[nA, nB], gsC6, true⟩, .ok ()) := rfl
  have h := claim_C6_edge_placement entC6 ⟨[nA, nB], gsC6, true⟩ hb
    (by decide) nB nA "a" (by decide) (by decide) (by decide)
  have h2 := h.1 (by decide)
  exact ⟨hb, h2.1, h2.2⟩

/-! ### The node-name filter of `get_sorted_files` -/

/-- Every node id emitted by the stable sort is a valid node index. -/
theorem stableTopo_mem_lt {α : Type} {key : α → String} {g : DG α}
    (hwf : WFdg g) : ∀ x ∈ stableTopoList key g, x < g.nodes.length := by
  have hL : stableTopoList key g =
      runTopo key g (g.nodes.length + 1) (initTopo g) := rfl
  rw [hL]
  apply runTopo_mem_lt hwf
  intro v hv
  rw [initTopo] at hv
  simp only [List.mem_filter, List.mem_range] at hv
  exact hv.1

/-- An empty configured include list rejects every node name. -/
theorem shouldInclude_empty (exc : Option (List String)) (fn : FileNodeD) :
    shouldIncludeNode (some []) exc fn = false := by
  cases exc <;> simp [shouldIncludeNode, startsWithAny]

/-- With the empty include list, the per-layer collection succeeds and keeps
nothing, provided every emitted id is a valid index. -/
theorem collectLayer_empty_inc {g : DG FileNodeD} {exc : Option (List String)} :
    ∀ {l : List Nat}, (∀ i ∈ l, i < g.nodes.length) →
      collectLayer g (some []) exc l = .ok []
  | [], _ => rfl
  | i :: rest, h => by
    have hi : i < g.nodes.length := h i (by simp)
    have hnn : g.nodes.get? i ≠ none := by
      rw [ne_eq, List.get?_eq_none]
      omega
    cases hget : g.nodes.get? i with
    | none => exact absurd hget hnn
    | some fn =>
      rw [collectLayer, hget,
        collectLayer_empty_inc (fun j hj => h j (by simp [hj]))]
      simp [shouldInclude_empty]

/-- After a clean validation pass, every layer graph is index-wise
well-formed: both ends of every edge point at nodes of that graph. -/
theorem validate_wf {entries : List ParseEntry} {gs1 : GraphsState}
    (hreg : (registerAux entries []).2 = none)
    (hval : validateAll (oksOf entries)
      (addNodesToGraphs (oksOf entries) emptyGraphs) (oksOf entries) =
      .ok gs1)
    (hflags : ∀ m ∈ oksOf entries, flagsOk m)
    (t : LayerTag) : WFdg (tagGraph gs1 t) := by
  intro e he
  have hp : (oksOf entries).Pairwise (fun a b => a.name ≠ b.name) := by
    simpa using reg_ok_nodup hreg List.Pairwise.nil
  have hext := validateAll_ext hval
  rcases validateAll_src hval he with h0 |
    ⟨m, d2, dm, hmm, hd2, hlk2, hec2, ht, hnew⟩
  · rw [tag_edges_nil] at h0
    simp at h0
  · have hdmmem : dm ∈ oksOf entries := List.mem_of_find?_eq_some hlk2
    have hdmname : dm.name = d2 := by simpa using List.find?_some hlk2
    have hfdm : flagsOk dm := hflags dm hdmmem
    subst ht
    subst hnew
    have hnodes := (hext.tag (tagOf m)).1
    rw [hnodes]
    simp only [newEdgeOf]
    constructor
    · have h1 := get_indexOfName hp hdmmem (edgeCase_tagOf hfdm hec2).symm
      rw [hdmname] at h1
      obtain ⟨hlt, _⟩ := List.get?_eq_some.mp h1
      exact hlt
    · have h1 := get_indexOfName hp hmm (Eq.refl (tagOf m))
      obtain ⟨hlt, _⟩ := List.get?_eq_some.mp h1
      exact hlt

/-- C10: when `include_node_prefixes` is configured as a present-but-empty
collection, `get_sorted_files` on any successfully built graph (with
single-layer flags) returns the empty list — every node fails the
include-prefix test, whatever the exclude configuration. -/
theorem claim_C10_empty_include (entries : List ParseEntry) (st : TCState)
    (hb : buildGraph entries = (st, .ok ()))
    (hflags : ∀ m ∈ oksOf entries, flagsOk m)
    (exc : Option (List String)) :
    getSortedFiles st (some []) exc = .ok [] := by
  obtain ⟨hreg, gs1, hval, hcyc, hst⟩ := buildGraph_ok_inv hb
  subst hst
  have hval' : validateAll (oksOf entries)
      (addNodesToGraphs (oksOf entries) emptyGraphs) (oksOf entries) =
      .ok gs1 := hval
  have h1 : collectLayer gs1.prependG (some []) exc
      (stableTopoList nodeKey gs1.prependG) = .ok [] :=
    collectLayer_empty_inc
      (stableTopo_mem_lt (validate_wf hreg hval' hflags .prependT))
  have h2 : collectLayer gs1.normalG (some []) exc
      (stableTopoList nodeKey gs1.normalG) = .ok [] :=
    collectLayer_empty_inc
      (stableTopo_mem_lt (validate_wf hreg hval' hflags .normalT))
  have h3 : collectLayer gs1.appendG (some []) exc
      (stableTopoList nodeKey gs1.appendG) = .ok [] :=
    collectLayer_empty_inc
      (stableTopo_mem_lt (validate_wf hreg hval' hflags .appendT))
  have hun : getSortedFiles (⟨oksOf entries, gs1, true⟩ : TCState)
      (some []) exc =
      (match collectLayer gs1.prependG (some []) exc
          (stableTopoList nodeKey gs1.prependG) with
      | .error e => .error e
      | .ok l1 =>
        match collectLayer gs1.normalG (some []) exc
            (stableTopoList nodeKey gs1.normalG) with
        | .error e => .error e
        | .ok l2 =>
          match collectLayer gs1.appendG (some []) exc
              (stableTopoList nodeKey gs1.appendG) with
          | .error e => .error e
          | .ok l3 => .ok (l1 ++ l2 ++ l3)) := rfl
  rw [hun, h1, h2, h3]
  rfl

theorem claim_C10_witness :
    buildGraph entC6 = (⟨[nA, nB], gsC6, true⟩, .ok ()) ∧
      getSortedFiles ⟨[nA, nB], gsC6, true⟩ (some []) none = .ok [] := by
  have hb : buildGraph entC6 = (⟨[nA, nB], gsC6, true⟩, .ok ()) := rfl
  exact ⟨hb, claim_C10_empty_include entC6 ⟨[nA, nB], gsC6, true⟩ hb
    (by decide) none⟩

/-! ### Missing name: directive -/

/-- A header line that is not a name: directive parses without error and
leaves the accumulated name unchanged. -/
theorem parseLine_pname {commentStr path : String} {st : PState} {l : String}
    (h : (l.trim.toLower).startsWith (commentStr ++ " name:") = false) :
    ∃ st2, parseLine commentStr path st l = .ok st2 ∧
      st2.pname = st.pname := by
  simp only [parseLine, h, Bool.false_eq_true, if_false]
  split_ifs <;> exact ⟨_, rfl, rfl⟩

/-- A header block with no name: directive parses without error and leaves
the name empty. -/
theorem parseLines_pname {commentStr path : String} :
    ∀ (ls : List String) (st : PState),
      (∀ l ∈ ls,
        (l.trim.toLower).startsWith (commentStr ++ " name:") = false) →
      ∃ st2, parseLines commentStr path st ls = .ok st2 ∧
        st2.pname = st.pname
  | [], st, _ => ⟨st, rfl, rfl⟩
  | l :: rest, st, h => by
    obtain ⟨stm, hok, hname⟩ := parseLine_pname (h l (by simp))
    obtain ⟨st2, hok2, hname2⟩ :=
      parseLines_pname rest stm (fun x hx => h x (by simp [hx]))
    refine ⟨st2, ?_, hname2.trans hname⟩
    rw [parseLines, hok]
    show parseLines commentStr path stm rest = .ok st2
    exact hok2

/-- The file loop drops a recoverable `NoNameDefined` entry without touching
the accumulator or the outcome. -/
theorem registerAux_skip (p : String) (post : List ParseEntry) :
    ∀ (preE : List ParseEntry) (acc : List FileNodeD),
      registerAux (preE ++ .error (.NoNameDefined p) :: post) acc =
      registerAux (preE ++ post) acc
  | [], acc => by
    rw [List.nil_append, List.nil_append, registerAux]
    rfl
  | .error e :: preE, acc => by
    rw [List.cons_append, List.cons_append, registerAux, registerAux]
    cases hh : handleFileNodeError e with
    | error te => rfl
    | ok u => exact registerAux_skip p post preE acc
  | .ok fn :: preE, acc => by
    rw [List.cons_append, List.cons_append, registerAux, registerAux]
    cases hlk : lookupName acc fn.name with
    | some other => rfl
    | none => exact registerAux_skip p post preE (acc ++ [fn])

/-- C8: a file whose header block carries no name: directive parses to the
`NoNameDefined` error, and `build_graph` recovers from such an entry
locally: the entire build outcome (state and result) is the same as if the
file were absent from the entry list. -/
theorem claim_C8_no_name_skippable (commentStr path : String)
    (lines layers : List String) (fb : String)
    (hno : ∀ l ∈ getFileHeaders commentStr lines,
      (l.trim.toLower).startsWith (commentStr ++ " name:") = false)
    (p : String) (preE post : List ParseEntry) :
    fromFileLines commentStr path lines layers fb =
      .error (.NoNameDefined path) ∧
    buildGraph (preE ++ .error (.NoNameDefined p) :: post) =
      buildGraph (preE ++ post) := by
  constructor
  · obtain ⟨st2, hok, hname⟩ :=
      parseLines_pname (getFileHeaders commentStr lines) ⟨"", [], fb, []⟩ hno
    rw [fromFileLines, hok]
    have hempty : st2.pname.isEmpty = true := by
      rw [hname]
      rfl
    show (if st2.pname.isEmpty then
        Except.error (ParseError.NoNameDefined path)
      else if !(layers.contains st2.player) then
        Except.error (.InvalidLayer path st2.player)
      else .ok (⟨st2.pname, path, st2.pdeps, st2.player, st2.pensure⟩ :
        ParsedNode)) =
      Except.error (.NoNameDefined path)
    rw [hempty]
    rfl
  · rw [buildGraph, buildGraph, registerAux_skip]

theorem claim_C8_witness :
    fromFileLines "--" "f.sql" [] ["normal"] "normal" =
      .error (.NoNameDefined "f.sql") ∧
    buildGraph ([.ok nA] ++ .error (.NoNameDefined "f.sql") :: [.ok nB]) =
      buildGraph ([.ok nA] ++ [.ok nB]) :=
  claim_C8_no_name_skippable "--" "f.sql" [] ["normal"] "normal"
    (by simp [getFileHeaders]) "f.sql" [.ok nA] [.ok nB]

end Topcat
